/-
Verification development for the pycalc_tk calculator core (src/pycalc_tk/core.py).

The file embeds the program shallowly in Lean 4:
  * `Dec` models Python `decimal.Decimal` finite values as sign / coefficient /
    exponent triples, the representation used by CPython's `_pydecimal`
    (`_sign`, `_int`, `_exp`).  Exponent bounds (Emin/Emax = ±999999) are not
    modelled; no input considered here comes near them.
  * Arithmetic follows the General Decimal Arithmetic semantics implemented by
    CPython's `decimal` module: exact computation followed by rounding to the
    context precision with ROUND_HALF_EVEN (the only rounding mode this
    program ever installs in a context).
  * The parser models `ast.parse(expr, mode="eval")` restricted to the
    arithmetic sub-grammar the program recognises (numeric literals,
    identifiers, unary plus and minus, binary + - * / % ** and the rejected
    ^ and // tokens,
    parentheses, calls with positional arguments).  Python parses a fractional
    numeric literal to a binary float object; the model records such literals
    with the `Lit.floatL` tag, which is all the evaluator ever inspects.
  * The evaluator, memory register, precision configuration and formatter are
    translated function by function from core.py.
-/
import Mathlib

set_option maxRecDepth 100000
set_option maxHeartbeats 2000000
set_option exponentiation.threshold 5000

deriving instance DecidableEq for Except

/-- Whitespace characters stripped by Python `str.strip()` (ASCII subset). -/
def isPySpace (c : Char) : Bool :=
  c == ' ' || c == '\t' || c == '\n' || c == '\r' || c == '\x0b' || c == '\x0c'

/-- Model of Python `str.strip()`: drop leading and trailing whitespace. -/
def pyStrip (s : String) : String :=
  String.mk (((s.data.dropWhile isPySpace).reverse.dropWhile isPySpace).reverse)

/-- Finite `decimal.Decimal` value: sign (true = negative), coefficient,
exponent; the numeric value is `(-1)^sign * c * 10^e`.  This mirrors the
`_sign`, `_int`, `_exp` fields of CPython's `_pydecimal.Decimal`. -/
structure Dec where
  sign : Bool
  c : Nat
  e : Int
deriving DecidableEq, Repr

/-- Arithmetic context: the active precision.  Every context constructed by
core.py uses rounding ROUND_HALF_EVEN (module init and
`Context(prec=..., rounding=self.settings.rounding)` with the default
settings), so the rounding mode is fixed in the model rather than stored. -/
structure Ctx where
  prec : Nat
deriving DecidableEq, Repr

/-- Error taxonomy: one constructor per Python exception class raised by
core.py, carrying the message.  `unmodelled` marks results of library calls
this development does not model (sqrt/ln/log10/exp and exotic `pow` cases);
no claim exercises those calls. -/
inductive Err where
  | synErr (msg : String)
  | valErr (msg : String)
  | typeErr (msg : String)
  | nameErr (msg : String)
  | zeroDivErr (msg : String)
  | decErr (msg : String)
  | unmodelled (msg : String)
deriving DecidableEq, Repr

/-- Little-endian base-10 digits of `n`, fuel-structured so the kernel can
evaluate it (`Nat.digits` in Mathlib is well-founded and does not reduce). -/
def natDigitsRevFuel : Nat → Nat → List Nat
  | 0, _ => []
  | fuel + 1, n => if n = 0 then [] else n % 10 :: natDigitsRevFuel fuel (n / 10)

/-- Little-endian base-10 digits of `n` (empty for 0). -/
def natDigitsRev (n : Nat) : List Nat :=
  natDigitsRevFuel n n

/-- Decimal digit characters of `n`, most significant first; `0` renders as
the single character list containing the zero digit (Python `str(int)`). -/
def natToDigitChars (n : Nat) : List Char :=
  if n = 0 then [ '0' ] else ((natDigitsRev n).reverse).map (fun d => Char.ofNat (48 + d))

/-- Floor logarithm base `b` by squaring the base: `logbGo fuel b n` equals
`Nat.log b n` whenever `2 ≤ b` and `n < b ^ 2 ^ fuel` (lemma `logbGo_eq_log`
below).  The divide-and-conquer shape keeps the recursion depth logarithmic so
the kernel can evaluate it on thousand-digit coefficients. -/
def logbGo : Nat → Nat → Nat → Nat
  | 0, _, _ => 0
  | fuel + 1, b, n =>
    if n < b then 0
    else
      let h := logbGo fuel (b * b) n
      if n < b ^ (2 * h + 1) then 2 * h else 2 * h + 1

/-- Number of decimal digits of a coefficient, as `len(str(n))` computes it
(`numDigits 0 = 1`); computed as `Nat.log 10 n + 1`. -/
def numDigits (n : Nat) : Nat :=
  logbGo n 10 n + 1

/-- Largest `t` such that `b ^ t` divides `c`, for `c ≠ 0`, `2 ≤ b`,
`c < b ^ 2 ^ fuel` (lemma `tzbGo_maximal` below); base-squaring recursion for
kernel-friendly depth. -/
def tzbGo : Nat → Nat → Nat → Nat
  | 0, _, _ => 0
  | fuel + 1, b, c =>
    if c % b ≠ 0 then 0
    else
      let k := tzbGo fuel (b * b) c
      if c % b ^ (2 * k + 1) = 0 then 2 * k + 1 else 2 * k

/-- Round `n / d` to the nearest integer, ties to even (ROUND_HALF_EVEN on an
exact remainder). -/
def divRoundHalfEven (n d : Nat) : Nat :=
  let q := n / d
  let r := n % d
  if 2 * r < d then q
  else if d < 2 * r then q + 1
  else if q % 2 = 0 then q else q + 1

/-- Model of `Decimal._fix`: round a result to the context precision with
ROUND_HALF_EVEN.  When rounding carries into a new digit (coefficient becomes
`10^prec`) the coefficient is renormalised to `10^(prec-1)` with the exponent
bumped, exactly as `_fix` does. -/
def fix (ctx : Ctx) (x : Dec) : Dec :=
  if numDigits x.c ≤ ctx.prec then x
  else
    let k := numDigits x.c - ctx.prec
    let c1 := divRoundHalfEven x.c (10 ^ k)
    if c1 = 10 ^ ctx.prec then ⟨x.sign, 10 ^ (ctx.prec - 1), x.e + k + 1⟩
    else ⟨x.sign, c1, x.e + k⟩

/-- Exact rescale of `x` to a smaller-or-equal exponent by padding zeros
(the only direction `__add__` ever rescales an operand). -/
def decRescaleDown (x : Dec) (exp : Int) : Dec :=
  ⟨x.sign, x.c * 10 ^ (x.e - exp).toNat, exp⟩

/-- Model of `Decimal.__add__` for finite operands: align exponents exactly,
combine per sign, round with `_fix`.  The sign rules for zero results follow
`_pydecimal` with rounding half-even (a cancelling sum yields +0; a sum of two
zeros is negative only when both operands are). -/
def decAdd (ctx : Ctx) (a b : Dec) : Dec :=
  let e := min a.e b.e
  if a.c = 0 && b.c = 0 then fix ctx ⟨a.sign && b.sign, 0, e⟩
  else if a.c = 0 then fix ctx (decRescaleDown b (max e (b.e - (ctx.prec : Int) - 1)))
  else if b.c = 0 then fix ctx (decRescaleDown a (max e (a.e - (ctx.prec : Int) - 1)))
  else
    let A := a.c * 10 ^ (a.e - e).toNat
    let B := b.c * 10 ^ (b.e - e).toNat
    if a.sign = b.sign then fix ctx ⟨a.sign, A + B, e⟩
    else if A = B then fix ctx ⟨false, 0, e⟩
    else if B < A then fix ctx ⟨a.sign, A - B, e⟩
    else fix ctx ⟨b.sign, B - A, e⟩

/-- Model of `Decimal.copy_negate`: flip the sign, even of a zero. -/
def decNeg (x : Dec) : Dec :=
  ⟨!x.sign, x.c, x.e⟩

/-- Model of `Decimal.__sub__`: add the negation (as `_pydecimal` does). -/
def decSub (ctx : Ctx) (a b : Dec) : Dec :=
  decAdd ctx a (decNeg b)

/-- Model of `Decimal.__mul__`: multiply coefficients, add exponents, round. -/
def decMul (ctx : Ctx) (a b : Dec) : Dec :=
  fix ctx ⟨xor a.sign b.sign, a.c * b.c, a.e + b.e⟩

/-- Strip trailing zeros from an exact quotient toward the ideal exponent, as
the loop in `__truediv__`'s exact branch does: it removes
`min (exponent gap) (number of trailing zeros)` zeros (all of them when the
coefficient is zero).  Computed arithmetically in one division so the kernel
never loops a thousand times. -/
def stripToIdeal (coeff : Nat) (exp ideal : Int) : Nat × Int :=
  let gap := (ideal - exp).toNat
  let s := if coeff = 0 then gap else min gap (tzbGo coeff 10 coeff)
  (coeff / 10 ^ s, exp + s)

/-- Model of `Decimal.__truediv__` for a nonzero divisor, following the
`_pydecimal` algorithm: shift the dividend so the quotient has prec+1 digits,
divide exactly, make an inexact quotient sticky-odd (`coeff % 5 == 0` bump) so
`_fix` rounds half-even correctly, or in the exact case strip zeros toward the
ideal exponent; then `_fix`.  The zero-divisor guard is unreachable from
`_apply_binop`, which tests `b == 0` first. -/
def decDiv (ctx : Ctx) (a b : Dec) : Except Err Dec :=
  if b.c = 0 then .error (.decErr "DivisionByZero") else
  let sign := xor a.sign b.sign
  let shift : Int := (numDigits b.c : Int) - (numDigits a.c : Int) + (ctx.prec : Int) + 1
  let exp := a.e - b.e - shift
  let nd : Nat × Nat :=
    if 0 ≤ shift then ((a.c * 10 ^ shift.toNat) / b.c, (a.c * 10 ^ shift.toNat) % b.c)
    else (a.c / (b.c * 10 ^ (-shift).toNat), a.c % (b.c * 10 ^ (-shift).toNat))
  let coeff := nd.1
  let remainder := nd.2
  if remainder ≠ 0 then
    .ok (fix ctx ⟨sign, if coeff % 5 = 0 then coeff + 1 else coeff, exp⟩)
  else
    let ideal := a.e - b.e
    let ce := stripToIdeal coeff exp ideal
    .ok (fix ctx ⟨sign, ce.1, ce.2⟩)

/-- Model of `Decimal.__mod__` for a nonzero divisor: remainder of truncating
division, carrying the dividend's sign, then `_fix`; a quotient wider than the
precision is an InvalidOperation, as in `_pydecimal._divide`. -/
def decMod (ctx : Ctx) (a b : Dec) : Except Err Dec :=
  if b.c = 0 then .error (.decErr "DivisionByZero") else
  let e := min a.e b.e
  let A := a.c * 10 ^ (a.e - e).toNat
  let B := b.c * 10 ^ (b.e - e).toNat
  if ctx.prec < numDigits (A / B) then
    .error (.decErr "InvalidOperation: quotient too large in //, % or divmod")
  else
    .ok (fix ctx ⟨a.sign, A % B, e⟩)

/-- Whether a `Dec` denotes an integer (`Decimal._isinteger`). -/
def isIntegralDec (x : Dec) : Bool :=
  decide (0 ≤ x.e) || decide (x.c % 10 ^ (-x.e).toNat = 0)

/-- Truncation of a `Dec` toward zero to a Python int (`int(Decimal)`). -/
def decToIntTrunc (x : Dec) : Int :=
  let m : Nat := if 0 ≤ x.e then x.c * 10 ^ x.e.toNat else x.c / 10 ^ (-x.e).toNat
  if x.sign then -(m : Int) else (m : Int)

/-- Model of `Decimal.__pow__` on the cases the program's claims exercise: a
nonzero base raised to a nonnegative integral exponent is the exact power
rounded by `_fix` (which is the correctly rounded result CPython produces for
integral exponents).  Non-integral or negative exponents and zero bases
delegate to library behaviour this development does not model; no claim
reaches those branches. -/
def decPowTop (ctx : Ctx) (a b : Dec) : Except Err Dec :=
  if !isIntegralDec b then .error (.unmodelled "pow with non-integral exponent") else
  let n := decToIntTrunc b
  if a.c = 0 then .error (.unmodelled "pow with zero base")
  else if n < 0 then .error (.unmodelled "pow with negative exponent")
  else .ok (fix ctx ⟨a.sign && n % 2 == 1, a.c ^ n.toNat, a.e * n⟩)

/-- Model of `Decimal.quantize(q)` with ROUND_HALF_EVEN: rescale the value to
the exponent of `q` exactly (padding) or by half-even rounding, failing with
InvalidOperation when the result needs more digits than the precision. -/
def decQuantize (ctx : Ctx) (x q : Dec) : Except Err Dec :=
  let k := x.e - q.e
  let c1 := if 0 ≤ k then x.c * 10 ^ k.toNat else divRoundHalfEven x.c (10 ^ (-k).toNat)
  if ctx.prec < numDigits c1 then
    .error (.decErr "InvalidOperation: quantize result has too many digits for current context")
  else
    .ok ⟨x.sign, c1, q.e⟩

/-- Model of core.py `_round_decimal`: quantize to `Decimal(1).scaleb(-ndigits)`,
i.e. to exponent `-ndigits`.  Both branches of the source's `if ndigits >= 0`
compute the very same quantum, so the model is a single expression. -/
def round_decimal (ctx : Ctx) (x : Dec) (ndigits : Int) : Except Err Dec :=
  decQuantize ctx x ⟨false, 1, -ndigits⟩

/-- Model of `Decimal.copy_abs`: clear the sign bit. -/
def decCopyAbs (x : Dec) : Dec :=
  ⟨false, x.c, x.e⟩

/-- Model of `Decimal.__neg__` (the evaluator's unary minus `-val`): negating
a zero yields a positive zero (unless rounding is FLOOR, which this program
never uses), otherwise the sign flips; then `_fix`. -/
def decNegOp (ctx : Ctx) (x : Dec) : Dec :=
  fix ctx (if x.c = 0 then ⟨false, x.c, x.e⟩ else decNeg x)

/-- The constant table `SAFE_CONSTS` of core.py: pi, e and tau as exact
decimal values of the 50-fractional-digit literals in the source. -/
def SAFE_CONSTS : List (String × Dec) :=
  [("pi", ⟨false, 314159265358979323846264338327950288419716939937510, -50⟩),
   ("e", ⟨false, 271828182845904523536028747135266249775724709369995, -50⟩),
   ("tau", ⟨false, 628318530717958647692528676655900576839433879875021, -50⟩)]

/-- Model of the `EvalSettings` dataclass.  The `rounding` field of the source
is always `ROUND_HALF_EVEN` (its default, never overridden anywhere in the
repository), so the model fixes that mode inside `Ctx` instead of storing it. -/
structure EvalSettings where
  precision : Nat := 1000
  max_depth : Nat := 64
deriving DecidableEq, Repr

/-- The module-level default context installed at import
(`_DEFAULT_PRECISION = 1000`, rounding half-even). -/
def gDefault : Ctx := ⟨1000⟩

/-- Model of core.py `set_precision`: reject a precision below 16 with a
ValueError, otherwise replace the global context's digit count. -/
def set_precision (prec : Nat) (g : Ctx) : Except Err Ctx :=
  if prec < 16 then .error (.valErr "Precision must be at least 16.")
  else .ok { g with prec := prec }

/-- Literal constants as the Python `ast` module delivers them to
`_eval_node`: an integer literal stays an exact int; a fractional literal
becomes a binary `float` object (only its type matters downstream, so the
model records the source text). -/
inductive Lit where
  | intL (n : Nat)
  | floatL (src : String)
deriving DecidableEq, Repr

/-- Unary operator nodes reaching `_apply_unary` (UAdd, USub, and Invert as a
representative of the rejected operators). -/
inductive UOp where
  | uadd
  | usub
  | invert
deriving DecidableEq, Repr

/-- Binary operator nodes reaching `_apply_binop` (BitXor and FloorDiv stand
for the grammar's `^` and `//`, which the evaluator rejects). -/
inductive BOp where
  | add
  | sub
  | mult
  | div
  | mod
  | pow
  | bitXor
  | floorDiv
deriving DecidableEq, Repr

mutual
/-- Expression AST as produced by `ast.parse(expr, mode="eval")`, restricted
to the sub-grammar the program recognises.  Parentheses are grouping only and
produce no node, exactly as in Python's `ast`.  Keyword arguments are not
representable here (the model's parser, like the claims, never builds them),
so the evaluator's `kwargs` rejection branch is not modelled. -/
inductive Ast where
  | lit (l : Lit)
  | name (id : String)
  | unaryOp (op : UOp) (operand : Ast)
  | binOp (left : Ast) (op : BOp) (right : Ast)
  | call (func : Ast) (args : AstList)

/-- Argument lists of a call node (a mutual inductive so that evaluation can
recurse structurally and still reduce in the kernel). -/
inductive AstList where
  | nil
  | cons (a : Ast) (rest : AstList)
end

/-- Model of core.py `_to_decimal` applied to a literal constant: ints convert
exactly via `Decimal(str(n))`; a float is neither `Decimal`, `int` nor `str`,
so it raises `TypeError` (f-string message for `float`). -/
def to_decimal : Lit → Except Err Dec
  | .intL n => .ok ⟨false, n, 0⟩
  | .floatL _ => .error (.typeErr "Unsupported literal type: <class 'float'>")

/-- Model of `DecimalEvaluator._apply_unary`; `-val` is `Decimal.__neg__`
under the active context. -/
def apply_unary (ctx : Ctx) (op : UOp) (val : Dec) : Except Err Dec :=
  match op with
  | .uadd => .ok val
  | .usub => .ok (decNegOp ctx val)
  | .invert => .error (.synErr "Unsupported unary operator.")

/-- Model of `DecimalEvaluator._apply_binop`: dispatch the six supported
operators (testing `b == 0` first for `/` and `%`), reject anything else. -/
def apply_binop (ctx : Ctx) (a : Dec) (op : BOp) (b : Dec) : Except Err Dec :=
  match op with
  | .add => .ok (decAdd ctx a b)
  | .sub => .ok (decSub ctx a b)
  | .mult => .ok (decMul ctx a b)
  | .div => if b.c = 0 then .error (.zeroDivErr "Division by zero.") else decDiv ctx a b
  | .mod => if b.c = 0 then .error (.zeroDivErr "Modulo by zero.") else decMod ctx a b
  | .pow => decPowTop ctx a b
  | .bitXor => .error (.synErr "Unsupported binary operator.")
  | .floorDiv => .error (.synErr "Unsupported binary operator.")

/-- The keys of `DecimalEvaluator.allowed_funcs`. -/
def allowedNames : List String :=
  ["sqrt", "ln", "log10", "exp", "abs", "round", "pow"]

/-- Dispatch of `self.allowed_funcs[fname](*dargs)`: the lambdas of
`allowed_funcs` with their arities (`round` defaulting its second argument to
`Decimal(0)`, truncated by `int(...)`); a wrong argument count is the
`TypeError` Python raises when unpacking `*dargs`.  The transcendental
entries (sqrt, ln, log10, exp) call correctly rounded `decimal` methods that
this development leaves unmodelled; no claim evaluates them. -/
def apply_allowed_func (ctx : Ctx) (fname : String) (args : List Dec) : Except Err Dec :=
  match fname, args with
  | "sqrt", [_] => .error (.unmodelled "sqrt result not modelled")
  | "ln", [_] => .error (.unmodelled "ln result not modelled")
  | "log10", [_] => .error (.unmodelled "log10 result not modelled")
  | "exp", [_] => .error (.unmodelled "exp result not modelled")
  | "abs", [x] => .ok (decCopyAbs x)
  | "round", [x] => round_decimal ctx x 0
  | "round", [x, n] => round_decimal ctx x (decToIntTrunc n)
  | "pow", [x, y] => decPowTop ctx x y
  | _, _ => .error (.typeErr ("wrong number of arguments for function " ++ fname))

/-- Lookup in the evaluator's `self.vars` dict. -/
def lookupVar (env : List (String × Dec)) (n : String) : Option Dec :=
  (env.find? (fun p => p.1 == n)).map (fun p => p.2)

/-- The `f`-string rendering of a call target: the `id` of a Name node, or
the string "None" when `getattr(f, "id", None)` yields `None`. -/
def callTargetName : Ast → String
  | .name i => i
  | _ => "None"

mutual
/-- Model of `DecimalEvaluator._eval_node`: guard the depth, then dispatch on
the node kind exactly as the source's `match` does. -/
def eval_node (s : EvalSettings) (ctx : Ctx) (env : List (String × Dec)) :
    Ast → Nat → Except Err Dec
  | node, depth =>
    if s.max_depth < depth then .error (.valErr "Expression too deeply nested.")
    else
      match node with
      | .lit l => to_decimal l
      | .binOp l op r => do
          let a ← eval_node s ctx env l (depth + 1)
          let b ← eval_node s ctx env r (depth + 1)
          apply_binop ctx a op b
      | .unaryOp op operand => do
          let v ← eval_node s ctx env operand (depth + 1)
          apply_unary ctx op v
      | .name id =>
          match lookupVar env id with
          | some v => .ok v
          | none => .error (.nameErr ("Unknown identifier: " ++ id))
      | .call f args =>
          let fname := callTargetName f
          if allowedNames.contains fname then do
            let ds ← eval_args s ctx env args (depth + 1)
            apply_allowed_func ctx fname ds
          else .error (.nameErr ("Unsupported function: " ++ fname))

/-- Left-to-right evaluation of call arguments, each at `depth + 1`, as the
source's list comprehension does. -/
def eval_args (s : EvalSettings) (ctx : Ctx) (env : List (String × Dec)) :
    AstList → Nat → Except Err (List Dec)
  | .nil, _ => .ok []
  | .cons a rest, depth => do
      let v ← eval_node s ctx env a depth
      let vs ← eval_args s ctx env rest depth
      .ok (v :: vs)
end

/-- Tokens of the recognised expression sub-grammar.  `numI` is an integer
literal, `numF` a literal containing a decimal point (which CPython's parser
turns into a binary float constant), `op` one of the recognised operator or
punctuation spellings. -/
inductive Tok where
  | numI (n : Nat)
  | numF (src : String)
  | ident (s : String)
  | op (s : String)
deriving DecidableEq, Repr

/-- Numeric value of a digit character. -/
def digitVal (ch : Char) : Nat :=
  ch.toNat - 48

/-- Fold a big-endian digit-character list to a natural number. -/
def digitCharsToNat (l : List Char) : Nat :=
  l.foldl (fun acc ch => 10 * acc + digitVal ch) 0

/-- Character class of identifier starts (Python names; ASCII subset). -/
def isIdentStart (ch : Char) : Bool :=
  ch.isAlpha || ch == '_'

/-- Character class of identifier continuations. -/
def isIdentCont (ch : Char) : Bool :=
  ch.isAlphanum || ch == '_'

/-- Tokenizer for the recognised sub-grammar of Python expressions: numbers
(with an optional fractional part, which marks the token as a float literal),
identifiers, the operator spellings + - * ** / // % ^ ( ) , and whitespace.
Any other character is a SyntaxError, as `ast.parse` would raise for the
inputs this program cares about.  `fuel` only bounds the recursion; every
step consumes at least one character, so `length + 1` fuel always suffices. -/
def tokenize : Nat → List Char → Except Err (List Tok)
  | 0, _ => .error (.synErr "invalid syntax")
  | _, [] => .ok []
  | fuel + 1, ch :: cs =>
    if isPySpace ch then tokenize fuel cs
    else if ch.isDigit || ch == '.' then
      let ip := (ch :: cs).takeWhile Char.isDigit
      let r1 := (ch :: cs).dropWhile Char.isDigit
      match r1 with
      | '.' :: r2 =>
        let fp := r2.takeWhile Char.isDigit
        let r3 := r2.dropWhile Char.isDigit
        if ip.isEmpty && fp.isEmpty then .error (.synErr "invalid syntax")
        else do
          let rest ← tokenize fuel r3
          .ok (.numF (String.mk (ip ++ '.' :: fp)) :: rest)
      | _ => do
          let rest ← tokenize fuel r1
          .ok (.numI (digitCharsToNat ip) :: rest)
    else if isIdentStart ch then
      let idp := (ch :: cs).takeWhile isIdentCont
      let r1 := (ch :: cs).dropWhile isIdentCont
      do
        let rest ← tokenize fuel r1
        .ok (.ident (String.mk idp) :: rest)
    else if ch == '*' then
      match cs with
      | '*' :: r1 => do
          let rest ← tokenize fuel r1
          .ok (.op "**" :: rest)
      | _ => do
          let rest ← tokenize fuel cs
          .ok (.op "*" :: rest)
    else if ch == '/' then
      match cs with
      | '/' :: r1 => do
          let rest ← tokenize fuel r1
          .ok (.op "//" :: rest)
      | _ => do
          let rest ← tokenize fuel cs
          .ok (.op "/" :: rest)
    else if ch == '+' || ch == '-' || ch == '%' || ch == '^' || ch == '(' ||
            ch == ')' || ch == ',' then do
      let rest ← tokenize fuel cs
      .ok (.op (String.mk [ch]) :: rest)
    else .error (.synErr "invalid syntax")

mutual
/-- Lowest-precedence recognised level: `^` (BitXor), which Python places
below the additive operators; the program's evaluator later rejects it. -/
def parseXor : Nat → List Tok → Except Err (Ast × List Tok)
  | 0, _ => .error (.synErr "invalid syntax")
  | fuel + 1, toks => do
    let (a, rest) ← parseAdd fuel toks
    parseXorLoop fuel a rest

/-- Left-associative continuation of `parseXor`. -/
def parseXorLoop : Nat → Ast → List Tok → Except Err (Ast × List Tok)
  | 0, _, _ => .error (.synErr "invalid syntax")
  | fuel + 1, a, toks =>
    match toks with
    | .op "^" :: rest => do
        let (b, rest2) ← parseAdd fuel rest
        parseXorLoop fuel (.binOp a .bitXor b) rest2
    | _ => .ok (a, toks)

/-- Additive level: `+` and `-`, left-associative. -/
def parseAdd : Nat → List Tok → Except Err (Ast × List Tok)
  | 0, _ => .error (.synErr "invalid syntax")
  | fuel + 1, toks => do
    let (a, rest) ← parseMul fuel toks
    parseAddLoop fuel a rest

/-- Left-associative continuation of `parseAdd`. -/
def parseAddLoop : Nat → Ast → List Tok → Except Err (Ast × List Tok)
  | 0, _, _ => .error (.synErr "invalid syntax")
  | fuel + 1, a, toks =>
    match toks with
    | .op "+" :: rest => do
        let (b, rest2) ← parseMul fuel rest
        parseAddLoop fuel (.binOp a .add b) rest2
    | .op "-" :: rest => do
        let (b, rest2) ← parseMul fuel rest
        parseAddLoop fuel (.binOp a .sub b) rest2
    | _ => .ok (a, toks)

/-- Multiplicative level: `*`, `/`, `%`, `//`, left-associative. -/
def parseMul : Nat → List Tok → Except Err (Ast × List Tok)
  | 0, _ => .error (.synErr "invalid syntax")
  | fuel + 1, toks => do
    let (a, rest) ← parseUnary fuel toks
    parseMulLoop fuel a rest

/-- Left-associative continuation of `parseMul`. -/
def parseMulLoop : Nat → Ast → List Tok → Except Err (Ast × List Tok)
  | 0, _, _ => .error (.synErr "invalid syntax")
  | fuel + 1, a, toks =>
    match toks with
    | .op "*" :: rest => do
        let (b, rest2) ← parseUnary fuel rest
        parseMulLoop fuel (.binOp a .mult b) rest2
    | .op "/" :: rest => do
        let (b, rest2) ← parseUnary fuel rest
        parseMulLoop fuel (.binOp a .div b) rest2
    | .op "%" :: rest => do
        let (b, rest2) ← parseUnary fuel rest
        parseMulLoop fuel (.binOp a .mod b) rest2
    | .op "//" :: rest => do
        let (b, rest2) ← parseUnary fuel rest
        parseMulLoop fuel (.binOp a .floorDiv b) rest2
    | _ => .ok (a, toks)

/-- Unary level (`u_expr` in the Python grammar): a sign applies to another
unary expression, otherwise fall through to the power level. -/
def parseUnary : Nat → List Tok → Except Err (Ast × List Tok)
  | 0, _ => .error (.synErr "invalid syntax")
  | fuel + 1, toks =>
    match toks with
    | .op "+" :: rest => do
        let (a, rest2) ← parseUnary fuel rest
        .ok (.unaryOp .uadd a, rest2)
    | .op "-" :: rest => do
        let (a, rest2) ← parseUnary fuel rest
        .ok (.unaryOp .usub a, rest2)
    | _ => parsePow fuel toks

/-- Power level (`power` in the Python grammar): a primary, optionally
raised with right-associative `**` to a unary expression. -/
def parsePow : Nat → List Tok → Except Err (Ast × List Tok)
  | 0, _ => .error (.synErr "invalid syntax")
  | fuel + 1, toks => do
    let (a, rest) ← parsePrimary fuel toks
    match rest with
    | .op "**" :: rest2 => do
        let (b, rest3) ← parseUnary fuel rest2
        .ok (.binOp a .pow b, rest3)
    | _ => .ok (a, rest)

/-- Primary level: an atom followed by call trailers. -/
def parsePrimary : Nat → List Tok → Except Err (Ast × List Tok)
  | 0, _ => .error (.synErr "invalid syntax")
  | fuel + 1, toks => do
    let (a, rest) ← parseAtom fuel toks
    parseTrailers fuel a rest

/-- Zero or more `(...)` call trailers applied to a primary (Python allows a
call on any primary; `getattr(f, "id", None)` deals with the target later). -/
def parseTrailers : Nat → Ast → List Tok → Except Err (Ast × List Tok)
  | 0, _, _ => .error (.synErr "invalid syntax")
  | fuel + 1, a, toks =>
    match toks with
    | .op "(" :: .op ")" :: rest => parseTrailers fuel (.call a .nil) rest
    | .op "(" :: rest => do
        let (args, rest2) ← parseArgs fuel rest
        match rest2 with
        | .op ")" :: rest3 => parseTrailers fuel (.call a args) rest3
        | _ => .error (.synErr "invalid syntax")
    | _ => .ok (a, toks)

/-- Comma-separated positional argument list (nonempty). -/
def parseArgs : Nat → List Tok → Except Err (AstList × List Tok)
  | 0, _ => .error (.synErr "invalid syntax")
  | fuel + 1, toks => do
    let (a, rest) ← parseXor fuel toks
    match rest with
    | .op "," :: rest2 => do
        let (args, rest3) ← parseArgs fuel rest2
        .ok (.cons a args, rest3)
    | _ => .ok (.cons a .nil, rest)

/-- Atom: a numeric literal, an identifier, or a parenthesized expression
(which yields the inner tree with no extra node, as in Python's `ast`). -/
def parseAtom : Nat → List Tok → Except Err (Ast × List Tok)
  | 0, _ => .error (.synErr "invalid syntax")
  | fuel + 1, toks =>
    match toks with
    | .numI n :: rest => .ok (.lit (.intL n), rest)
    | .numF s :: rest => .ok (.lit (.floatL s), rest)
    | .ident s :: rest => .ok (.name s, rest)
    | .op "(" :: rest => do
        let (a, rest2) ← parseXor fuel rest
        match rest2 with
        | .op ")" :: rest3 => .ok (a, rest3)
        | _ => .error (.synErr "invalid syntax")
    | _ => .error (.synErr "invalid syntax")
end

/-- Model of `ast.parse(expr, mode="eval").body` on the recognised
sub-grammar: tokenize, parse a full expression, require all input consumed. -/
def parse_expression (expr : String) : Except Err Ast := do
  let toks ← tokenize (expr.data.length + 1) expr.data
  let (a, rest) ← parseXor (8 * (toks.length + 1)) toks
  match rest with
  | [] => .ok a
  | _ => .error (.synErr "invalid syntax")

/-- Model of `Decimal.normalize()` under the ambient context: round with
`_fix`, send any zero to a zero with exponent 0 (keeping its sign), otherwise
strip all trailing zeros of the coefficient, raising the exponent.  (The
exponent ceiling `Emax - prec + 1` of the source is astronomically far from
every value considered here and is not modelled.) -/
def decNormalize (g : Ctx) (x : Dec) : Dec :=
  let dup := fix g x
  if dup.c = 0 then ⟨dup.sign, 0, 0⟩
  else
    let t := tzbGo dup.c 10 dup.c
    ⟨dup.sign, dup.c / 10 ^ t, dup.e + t⟩

/-- Model of `format(d, "f")` for a finite `Decimal` (the `_pydecimal`
`__format__` fixed-point path): place the decimal point `leftdigits = exp +
len(digits)` positions from the left, padding with zeros on whichever side
falls short; a negative sign is prepended even for `-0`. -/
def formatFChars (d : Dec) : List Char :=
  let D := natToDigitChars d.c
  let L : Int := (D.length : Int)
  let dp : Int := d.e + L
  let body :=
    if dp ≤ 0 then '0' :: '.' :: (List.replicate (-dp).toNat '0' ++ D)
    else if L ≤ dp then D ++ List.replicate (dp - L).toNat '0'
    else D.take dp.toNat ++ '.' :: D.drop dp.toNat
  (if d.sign then [ '-' ] else []) ++ body

/-- Model of Python `str.rstrip` with a single strip character. -/
def rstripChar (ch : Char) (l : List Char) : List Char :=
  (l.reverse.dropWhile (fun x => x == ch)).reverse

/-- Model of `CalculatorEngine.format_decimal`.  It runs after the
evaluator's `localcontext` block has exited, so `normalize()` sees the global
context `g`.  The source's conditional expression chooses between two
identical arms (`format(normalized, "f")` twice), so the model renders
once; then trailing zeros and a trailing point are stripped when a point is
present, and an empty result falls back to "0". -/
def format_decimal (g : Ctx) (x : Dec) : String :=
  let normalized := decNormalize g x
  let s := formatFChars normalized
  let s2 := if s.contains '.' then rstripChar '.' (rstripChar '0' s) else s
  String.mk (if s2.isEmpty then [ '0' ] else s2)

/-- Model of the `Decimal` string constructor on the plain fixed-point forms
the formatter can produce (optional minus sign, integer digits, optional
fractional digits): sign, concatenated digits as coefficient, exponent minus
the fractional length.  Exponent markers and a leading plus are never emitted
by the formatter and are left out of this model. -/
def decOfString (s : String) : Option Dec :=
  let l := s.data
  let sr : Bool × List Char := if l.head? = some '-' then (true, l.tail) else (false, l)
  let ip := sr.2.takeWhile Char.isDigit
  let r2 := sr.2.dropWhile Char.isDigit
  match r2 with
  | [] => if ip.isEmpty then none else some ⟨sr.1, digitCharsToNat ip, 0⟩
  | ch :: fp =>
    if ch = '.' ∧ fp.all Char.isDigit ∧ ¬(ip.isEmpty ∧ fp.isEmpty) then
      some ⟨sr.1, digitCharsToNat (ip ++ fp), -(fp.length : Int)⟩
    else none

/-- Exact rational value denoted by a `Dec` (Python `Decimal` equality
compares exactly these values; in particular `-0 == 0`). -/
def decVal (x : Dec) : ℚ :=
  (if x.sign then -1 else 1) * (x.c : ℚ) * (10 : ℚ) ^ x.e

/-- The `Memory` register dataclass: one `Decimal` cell, default zero. -/
structure Memory where
  value : Dec := ⟨false, 0, 0⟩
deriving DecidableEq, Repr

/-- A fresh register, `Memory()`. -/
def mem0 : Memory := {}

/-- Model of `Memory.clear`. -/
def Memory.clear (_ : Memory) : Memory := ⟨⟨false, 0, 0⟩⟩

/-- Model of `Memory.recall` (pure read). -/
def Memory.recall (m : Memory) : Dec := m.value

/-- Model of `Memory.add`: `self.value += x`, a `Decimal.__add__` under the
ambient (global) context, which is what is active when the engine's caller
invokes it. -/
def Memory.add (g : Ctx) (m : Memory) (x : Dec) : Memory := ⟨decAdd g m.value x⟩

/-- Model of `Memory.sub`: `self.value -= x`. -/
def Memory.sub (g : Ctx) (m : Memory) (x : Dec) : Memory := ⟨decSub g m.value x⟩

/-- The default engine settings, `EvalSettings()`. -/
def Sdefault : EvalSettings := {}

/-- Model of `DecimalEvaluator(...).eval(expr)` as called by the engine: the
`with localcontext(Context(prec=settings.precision, rounding=HALF_EVEN))`
block makes the settings-derived context ambient for parsing and evaluation
(and restores the previous one afterwards, which is why this function does
not receive the global context), the environment is the constant table plus
the caller-supplied binding of "M" (`_to_decimal` of a `Decimal` is the
identity), and evaluation starts at depth 0. -/
def evaluator_eval (s : EvalSettings) (mval : Dec) (expr : String) : Except Err Dec :=
  let ctx : Ctx := ⟨s.precision⟩
  (do
    let node ← parse_expression expr
    eval_node s ctx (SAFE_CONSTS ++ [("M", mval)]) node 0)

/-- Model of `CalculatorEngine.evaluate` with the process state threaded
explicitly: global context and memory go in and come out.  The body mirrors
the source line by line: strip, early return of "" on an empty expression,
build a fresh evaluator binding "M" to `memory.recall()`, evaluate (a raised
error aborts the call, leaving the state as it was), format under the global
context.  No branch writes to the register or the global context. -/
def engine_evaluate_st (g : Ctx) (s : EvalSettings) (m : Memory) (input : String) :
    (Except Err String) × Ctx × Memory :=
  let expr := pyStrip input
  if expr.data.isEmpty then (.ok "", g, m)
  else
    match evaluator_eval s m.recall expr with
    | .error err => (.error err, g, m)
    | .ok r => (.ok (format_decimal g r), g, m)

/-- The result component of `CalculatorEngine.evaluate`. -/
def engine_evaluate (g : Ctx) (s : EvalSettings) (m : Memory) (input : String) :
    Except Err String :=
  (engine_evaluate_st g s m input).1

/-- The expression string wrapping the literal 1 in `n` pairs of
parentheses. -/
def nestedParens (n : Nat) : String :=
  String.mk (List.replicate n '(' ++ '1' :: List.replicate n ')')

/-- The AST of `n` nested calls `abs(abs(...abs(1)...))`. -/
def absChain : Nat → Ast
  | 0 => .lit (.intL 1)
  | n + 1 => .call (.name "abs") (.cons (absChain n) .nil)

mutual
/-- Height of an AST node: how many descents (`depth + 1` steps of
`_eval_node`) separate the node from its deepest evaluated descendant.  The
callee of a call node is not evaluated (only `getattr(f, "id", None)` runs on
it), so it does not count. -/
def astHeight : Ast → Nat
  | .lit _ => 0
  | .name _ => 0
  | .unaryOp _ operand => astHeight operand + 1
  | .binOp l _ r => max (astHeight l) (astHeight r) + 1
  | .call _ args => astListHeight args + 1

/-- Height of an argument list (0 when empty). -/
def astListHeight : AstList → Nat
  | .nil => 0
  | .cons a rest => max (astHeight a) (astListHeight rest)
end

/-! Arithmetic characterizations of the divide-and-conquer helpers. -/

/-- Squared-base powers rewrite to doubled exponents. -/
theorem mul_self_pow (b k : Nat) : (b * b) ^ k = b ^ (2 * k) := by
  rw [← pow_two, ← pow_mul]

/-- Every natural number is below `10 ^ 2 ^ n`, the fuel-sufficiency bound for
`logbGo` and `tzbGo`. -/
theorem lt_ten_pow_two_pow (n : Nat) : n < 10 ^ 2 ^ n := by
  calc n < 2 ^ n := Nat.lt_two_pow n
    _ ≤ 10 ^ n := Nat.pow_le_pow_left (by norm_num) n
    _ ≤ 10 ^ 2 ^ n := Nat.pow_le_pow_right (by norm_num) (Nat.le_of_lt (Nat.lt_two_pow n))

/-- Correctness of `logbGo`: with enough fuel it computes `Nat.log`. -/
theorem logbGo_eq_log : ∀ (fuel b n : Nat), 2 ≤ b → n < b ^ 2 ^ fuel →
    logbGo fuel b n = Nat.log b n := by
  intro fuel
  induction fuel with
  | zero =>
    intro b n hb hn
    simp only [pow_zero, pow_one] at hn
    simp only [logbGo]
    exact (Nat.log_eq_zero_iff.mpr (Or.inl hn)).symm
  | succ f ih =>
    intro b n hb hn
    simp only [logbGo]
    by_cases hnb : n < b
    · rw [if_pos hnb]
      exact (Nat.log_eq_zero_iff.mpr (Or.inl hnb)).symm
    · rw [if_neg hnb]
      have hbb : 2 ≤ b * b := by nlinarith
      have hpow : n < (b * b) ^ 2 ^ f := by
        rw [mul_self_pow]
        have h2 : 2 * 2 ^ f = 2 ^ (f + 1) := by rw [pow_succ]; ring
        rw [h2]
        exact hn
      rw [ih (b * b) n hbb hpow]
      set h := Nat.log (b * b) n with hh
      have hn0 : n ≠ 0 := by omega
      have hlow : b ^ (2 * h) ≤ n := by
        rw [← mul_self_pow]
        exact Nat.pow_log_le_self (b * b) hn0
      have hhigh : n < b ^ (2 * h + 2) := by
        have hx := Nat.lt_pow_succ_log_self (show 1 < b * b by nlinarith) n
        rw [mul_self_pow, ← hh] at hx
        have h2 : 2 * (h + 1) = 2 * h + 2 := by ring
        rwa [h2] at hx
      by_cases hmid : n < b ^ (2 * h + 1)
      · rw [if_pos hmid]
        exact (Nat.log_eq_of_pow_le_of_lt_pow hlow hmid).symm
      · rw [if_neg hmid]
        exact (Nat.log_eq_of_pow_le_of_lt_pow (le_of_not_lt hmid) hhigh).symm

/-- `numDigits` computes the decimal digit count `Nat.log 10 n + 1`. -/
theorem numDigits_eq_log (n : Nat) : numDigits n = Nat.log 10 n + 1 := by
  unfold numDigits
  rw [logbGo_eq_log n 10 n (by norm_num) (lt_ten_pow_two_pow n)]

/-- Digit-count bound as a power comparison. -/
theorem numDigits_le_iff (n k : Nat) (hk : 1 ≤ k) : numDigits n ≤ k ↔ n < 10 ^ k := by
  rcases Nat.eq_zero_or_pos n with h0 | hpos
  · subst h0
    rw [numDigits_eq_log]
    simp only [Nat.log_zero_right]
    constructor
    · intro _
      positivity
    · intro _
      omega
  · rw [numDigits_eq_log, Nat.lt_pow_iff_log_lt (by norm_num) (by omega)]
    omega

/-- Correctness of `tzbGo`: with enough fuel it finds the exact multiplicity
of `b` in `c`. -/
theorem tzbGo_spec : ∀ (fuel b c : Nat), 2 ≤ b → c ≠ 0 → c < b ^ 2 ^ fuel →
    b ^ tzbGo fuel b c ∣ c ∧ ¬ b ^ (tzbGo fuel b c + 1) ∣ c := by
  intro fuel
  induction fuel with
  | zero =>
    intro b c hb hc hlt
    simp only [pow_zero, pow_one] at hlt
    refine ⟨by simp [tzbGo], ?_⟩
    simp only [tzbGo, zero_add, pow_one]
    intro hdvd
    exact absurd (Nat.le_of_dvd (Nat.pos_of_ne_zero hc) hdvd) (by omega)
  | succ f ih =>
    intro b c hb hc hlt
    simp only [tzbGo]
    by_cases hmod : c % b = 0
    · rw [if_neg (not_not_intro hmod)]
      have hbb : 2 ≤ b * b := by nlinarith
      have hpow : c < (b * b) ^ 2 ^ f := by
        rw [mul_self_pow]
        have h2 : 2 * 2 ^ f = 2 ^ (f + 1) := by rw [pow_succ]; ring
        rw [h2]
        exact hlt
      obtain ⟨hdvd2, hnd2⟩ := ih (b * b) c hbb hc hpow
      set k := tzbGo f (b * b) c with hk
      rw [mul_self_pow] at hdvd2
      have hnd2' : ¬ b ^ (2 * k + 2) ∣ c := by
        rw [mul_self_pow] at hnd2
        have h2 : 2 * (k + 1) = 2 * k + 2 := by ring
        rwa [h2] at hnd2
      by_cases hmid : c % b ^ (2 * k + 1) = 0
      · rw [if_pos hmid]
        exact ⟨Nat.dvd_iff_mod_eq_zero.mpr hmid, by
          have h2 : 2 * k + 1 + 1 = 2 * k + 2 := by ring
          rw [h2]
          exact hnd2'⟩
      · rw [if_neg hmid]
        exact ⟨hdvd2, fun hdvd => hmid (Nat.dvd_iff_mod_eq_zero.mp hdvd)⟩
    · rw [if_pos hmod]
      refine ⟨by simp, ?_⟩
      simp only [zero_add, pow_one]
      intro hdvd
      exact hmod (Nat.dvd_iff_mod_eq_zero.mp hdvd)

/-- The zero-strip count used by `decNormalize` and `stripToIdeal`:
instantiation of `tzbGo_spec` at base 10 with its own fuel. -/
theorem tz10_spec (c : Nat) (hc : c ≠ 0) :
    10 ^ tzbGo c 10 c ∣ c ∧ ¬ 10 ^ (tzbGo c 10 c + 1) ∣ c :=
  tzbGo_spec c 10 c (by norm_num) hc (lt_ten_pow_two_pow c)

/-- `_fix` leaves a value alone when its coefficient fits the precision. -/
theorem fix_eq_self (ctx : Ctx) (x : Dec) (h : numDigits x.c ≤ ctx.prec) :
    fix ctx x = x := by
  unfold fix
  rw [if_pos h]

/-! Digit-string lemmas connecting the renderers to `Nat.digits`. -/

/-- The fuelled digit extractor agrees with `Nat.digits` once the fuel covers
the argument. -/
theorem natDigitsRevFuel_eq (fuel : Nat) : ∀ n : Nat, n ≤ fuel →
    natDigitsRevFuel fuel n = Nat.digits 10 n := by
  induction fuel with
  | zero =>
    intro n h
    have h0 : n = 0 := by omega
    subst h0
    simp [natDigitsRevFuel]
  | succ f ih =>
    intro n h
    by_cases h0 : n = 0
    · subst h0
      simp [natDigitsRevFuel]
    · simp only [natDigitsRevFuel, if_neg h0]
      have hdiv : n / 10 ≤ f := by
        have := Nat.div_lt_self (Nat.pos_of_ne_zero h0) (by norm_num : 1 < 10)
        omega
      rw [ih (n / 10) hdiv,
        (Nat.digits_def' (by norm_num : (1:Nat) < 10) (Nat.pos_of_ne_zero h0)).symm]

/-- `natDigitsRev` is `Nat.digits 10`. -/
theorem natDigitsRev_eq (n : Nat) : natDigitsRev n = Nat.digits 10 n :=
  natDigitsRevFuel_eq n n le_rfl

/-- Decoding a digit character made from `d < 10` gives back `d`. -/
theorem digit_char_digitVal (d : Nat) (hd : d < 10) :
    digitVal (Char.ofNat (48 + d)) = d := by
  interval_cases d <;> decide

/-- Digit characters made from `d < 10` satisfy `isDigit`. -/
theorem digit_char_isDigit (d : Nat) (hd : d < 10) :
    (Char.ofNat (48 + d)).isDigit = true := by
  interval_cases d <;> decide

/-- A digit character is not the minus sign. -/
theorem isDigit_ne_dash {ch : Char} (h : ch.isDigit = true) : ch ≠ '-' := by
  intro he
  rw [he] at h
  exact absurd h (by decide)

/-- A digit character is not the decimal point. -/
theorem isDigit_ne_dot {ch : Char} (h : ch.isDigit = true) : ch ≠ '.' := by
  intro he
  rw [he] at h
  exact absurd h (by decide)

/-- A digit character is not an exponent marker. -/
theorem isDigit_ne_expmark {ch : Char} (h : ch.isDigit = true) : ch ≠ 'E' ∧ ch ≠ 'e' := by
  constructor <;> intro he <;> rw [he] at h <;> exact absurd h (by decide)

/-- Folding digits from a nonzero accumulator. -/
theorem foldl_digit_acc (l : List Char) (acc : Nat) :
    l.foldl (fun a ch => 10 * a + digitVal ch) acc =
      acc * 10 ^ l.length + digitCharsToNat l := by
  induction l generalizing acc with
  | nil => simp [digitCharsToNat]
  | cons c t ih =>
    simp only [List.foldl_cons, digitCharsToNat, List.length_cons]
    rw [ih (10 * acc + digitVal c), ih (10 * 0 + digitVal c), pow_succ]
    ring

/-- The digit fold splits over concatenation. -/
theorem digitCharsToNat_append (A B : List Char) :
    digitCharsToNat (A ++ B) = digitCharsToNat A * 10 ^ B.length + digitCharsToNat B := by
  unfold digitCharsToNat
  rw [List.foldl_append, foldl_digit_acc]
  rfl

/-- A run of zero characters folds to zero. -/
theorem digitCharsToNat_replicate_zero (k : Nat) :
    digitCharsToNat (List.replicate k '0') = 0 := by
  induction k with
  | zero => simp [digitCharsToNat]
  | succ m ih =>
    rw [List.replicate_succ]
    simpa [digitCharsToNat, digitVal] using ih

/-- A single digit character folds to its value. -/
theorem digitCharsToNat_singleton (ch : Char) : digitCharsToNat [ch] = digitVal ch := by
  simp [digitCharsToNat]

/-- Rendering a little-endian digit list big-endian and folding it back gives
`Nat.ofDigits`. -/
theorem digitCharsToNat_digits (L : List Nat) (hL : ∀ d ∈ L, d < 10) :
    digitCharsToNat ((L.reverse).map fun d => Char.ofNat (48 + d)) = Nat.ofDigits 10 L := by
  induction L with
  | nil => simp [digitCharsToNat, Nat.ofDigits_nil]
  | cons d T ih =>
    simp only [List.reverse_cons, List.map_append, List.map_cons, List.map_nil]
    rw [digitCharsToNat_append]
    have hd : d < 10 := hL d (by simp)
    have hT : ∀ x ∈ T, x < 10 := fun x hx => hL x (by simp [hx])
    rw [ih hT, digitCharsToNat_singleton, digit_char_digitVal d hd, Nat.ofDigits_cons]
    simp
    ring

/-- Round trip: folding the rendered digit characters of `n` recovers `n`. -/
theorem digitCharsToNat_natToDigitChars (n : Nat) :
    digitCharsToNat (natToDigitChars n) = n := by
  by_cases h0 : n = 0
  · subst h0
    decide
  · unfold natToDigitChars
    rw [if_neg h0, natDigitsRev_eq,
      digitCharsToNat_digits _ (fun d hd => Nat.digits_lt_base (by norm_num) hd)]
    exact Nat.ofDigits_digits 10 n

/-- The rendered digit characters are never empty. -/
theorem natToDigitChars_ne_nil (n : Nat) : natToDigitChars n ≠ [] := by
  by_cases h0 : n = 0
  · subst h0
    decide
  · unfold natToDigitChars
    rw [if_neg h0, natDigitsRev_eq]
    simp [Nat.digits_ne_nil_iff_ne_zero.mpr h0]

/-- Every rendered character is a digit. -/
theorem natToDigitChars_all_digit (n : Nat) :
    ∀ ch ∈ natToDigitChars n, ch.isDigit = true := by
  by_cases h0 : n = 0
  · subst h0
    intro ch hch
    simp [natToDigitChars] at hch
    subst hch
    decide
  · unfold natToDigitChars
    rw [if_neg h0, natDigitsRev_eq]
    intro ch hch
    simp only [List.mem_map, List.mem_reverse] at hch
    obtain ⟨d, hd, rfl⟩ := hch
    exact digit_char_isDigit d (Nat.digits_lt_base (by norm_num) hd)

/-- The last element of a list ending in a singleton. -/
theorem getLast_append_singleton {α : Type} (l : List α) (a : α) :
    (l ++ [a]).getLast? = some a := by
  induction l with
  | nil => rfl
  | cons x t ih =>
    rw [List.cons_append]
    cases ht : t ++ [a] with
    | nil => cases t <;> simp at ht
    | cons y r =>
      rw [List.getLast?_cons_cons]
      rw [ht] at ih
      exact ih

/-- The last rendered character is the units digit. -/
theorem natToDigitChars_getLast (n : Nat) (h0 : n ≠ 0) :
    (natToDigitChars n).getLast? = some (Char.ofNat (48 + n % 10)) := by
  unfold natToDigitChars
  rw [if_neg h0, natDigitsRev_eq,
    Nat.digits_def' (by norm_num : (1:Nat) < 10) (Nat.pos_of_ne_zero h0)]
  simp only [List.reverse_cons, List.map_append, List.map_cons, List.map_nil]
  exact getLast_append_singleton _ _

/-! Error-kind invariants: no arithmetic helper ever raises the evaluator's
ValueError, so the "nesting too deep" message can only come from the depth
guard itself. -/

/-- Bind of an error propagates (Except monad). -/
theorem except_bind_error {α β γ : Type} (e : α) (f : β → Except α γ) :
    (Except.error e >>= f) = Except.error e := rfl

/-- Bind of a success applies the continuation (Except monad). -/
theorem except_bind_ok {α β γ : Type} (b : β) (f : β → Except α γ) :
    (Except.ok b >>= f) = f b := rfl

/-- Division never raises a ValueError. -/
theorem decDiv_ne_valErr (ctx : Ctx) (a b : Dec) (msg : String) :
    decDiv ctx a b ≠ .error (.valErr msg) := by
  unfold decDiv
  dsimp only
  split
  · simp
  · split <;> split <;> simp

/-- Modulo never raises a ValueError. -/
theorem decMod_ne_valErr (ctx : Ctx) (a b : Dec) (msg : String) :
    decMod ctx a b ≠ .error (.valErr msg) := by
  unfold decMod
  dsimp only
  split
  · simp
  · split <;> simp

/-- Power never raises a ValueError. -/
theorem decPowTop_ne_valErr (ctx : Ctx) (a b : Dec) (msg : String) :
    decPowTop ctx a b ≠ .error (.valErr msg) := by
  unfold decPowTop
  dsimp only
  split
  · simp
  · split
    · simp
    · split <;> simp

/-- Quantize never raises a ValueError. -/
theorem decQuantize_ne_valErr (ctx : Ctx) (x q : Dec) (msg : String) :
    decQuantize ctx x q ≠ .error (.valErr msg) := by
  unfold decQuantize
  dsimp only
  split <;> split <;> simp

/-- Literal conversion never raises a ValueError. -/
theorem to_decimal_ne_valErr (l : Lit) (msg : String) :
    to_decimal l ≠ .error (.valErr msg) := by
  cases l <;> simp [to_decimal]

/-- Unary dispatch never raises a ValueError. -/
theorem apply_unary_ne_valErr (ctx : Ctx) (op : UOp) (v : Dec) (msg : String) :
    apply_unary ctx op v ≠ .error (.valErr msg) := by
  cases op <;> simp [apply_unary]

/-- Binary dispatch never raises a ValueError. -/
theorem apply_binop_ne_valErr (ctx : Ctx) (a : Dec) (op : BOp) (b : Dec) (msg : String) :
    apply_binop ctx a op b ≠ .error (.valErr msg) := by
  cases op with
  | add => simp [apply_binop]
  | sub => simp [apply_binop]
  | mult => simp [apply_binop]
  | div =>
    simp only [apply_binop]
    split
    · simp
    · apply decDiv_ne_valErr
  | mod =>
    simp only [apply_binop]
    split
    · simp
    · apply decMod_ne_valErr
  | pow =>
    simp only [apply_binop]
    apply decPowTop_ne_valErr
  | bitXor => simp [apply_binop]
  | floorDiv => simp [apply_binop]

/-- Function dispatch never raises a ValueError. -/
theorem apply_allowed_func_ne_valErr (ctx : Ctx) (fname : String) (args : List Dec)
    (msg : String) : apply_allowed_func ctx fname args ≠ .error (.valErr msg) := by
  unfold apply_allowed_func
  split
  · simp
  · simp
  · simp
  · simp
  · simp
  · unfold round_decimal
    apply decQuantize_ne_valErr
  · unfold round_decimal
    apply decQuantize_ne_valErr
  · apply decPowTop_ne_valErr
  · simp

mutual
/-- Inside the depth budget, evaluation never produces a ValueError: the
"nesting too deep" branch is the only source of that class and it is not
reached when `depth + astHeight node ≤ max_depth`. -/
theorem eval_node_ne_valErr (s : EvalSettings) (ctx : Ctx) (env : List (String × Dec))
    (node : Ast) (depth : Nat) (h : depth + astHeight node ≤ s.max_depth) (msg : String) :
    eval_node s ctx env node depth ≠ Except.error (Err.valErr msg) := by
  have hd : ¬ s.max_depth < depth := by omega
  cases node with
  | lit l =>
    simp only [eval_node, if_neg hd]
    exact to_decimal_ne_valErr l msg
  | name id =>
    simp only [eval_node, if_neg hd]
    cases hl : lookupVar env id <;> simp
  | unaryOp op operand =>
    have hh : depth + 1 + astHeight operand ≤ s.max_depth := by
      simp only [astHeight] at h
      omega
    simp only [eval_node, if_neg hd]
    cases hv : eval_node s ctx env operand (depth + 1) with
    | error e =>
      rw [except_bind_error]
      intro heq
      injection heq with h1
      subst h1
      exact eval_node_ne_valErr s ctx env operand (depth + 1) hh msg hv
    | ok v =>
      rw [except_bind_ok]
      apply apply_unary_ne_valErr
  | binOp l op r =>
    have hl' : depth + 1 + astHeight l ≤ s.max_depth := by
      simp only [astHeight] at h
      omega
    have hr' : depth + 1 + astHeight r ≤ s.max_depth := by
      simp only [astHeight] at h
      omega
    simp only [eval_node, if_neg hd]
    cases hv : eval_node s ctx env l (depth + 1) with
    | error e =>
      rw [except_bind_error]
      intro heq
      injection heq with h1
      subst h1
      exact eval_node_ne_valErr s ctx env l (depth + 1) hl' msg hv
    | ok a =>
      rw [except_bind_ok]
      cases hw : eval_node s ctx env r (depth + 1) with
      | error e =>
        rw [except_bind_error]
        intro heq
        injection heq with h1
        subst h1
        exact eval_node_ne_valErr s ctx env r (depth + 1) hr' msg hw
      | ok b =>
        rw [except_bind_ok]
        apply apply_binop_ne_valErr
  | call f args =>
    have hh : depth + 1 + astListHeight args ≤ s.max_depth := by
      simp only [astHeight] at h
      omega
    simp only [eval_node, if_neg hd]
    by_cases hc : allowedNames.contains (callTargetName f)
    · rw [if_pos hc]
      cases ha : eval_args s ctx env args (depth + 1) with
      | error e =>
        rw [except_bind_error]
        intro heq
        injection heq with h1
        subst h1
        exact eval_args_ne_valErr s ctx env args (depth + 1) hh msg ha
      | ok ds =>
        rw [except_bind_ok]
        apply apply_allowed_func_ne_valErr
    · rw [if_neg hc]
      simp

/-- Inside the depth budget, argument-list evaluation never produces a
ValueError either. -/
theorem eval_args_ne_valErr (s : EvalSettings) (ctx : Ctx) (env : List (String × Dec))
    (args : AstList) (depth : Nat) (h : depth + astListHeight args ≤ s.max_depth)
    (msg : String) : eval_args s ctx env args depth ≠ Except.error (Err.valErr msg) := by
  cases args with
  | nil => simp [eval_args]
  | cons a rest =>
    have ha' : depth + astHeight a ≤ s.max_depth := by
      simp only [astListHeight] at h
      omega
    have hr' : depth + astListHeight rest ≤ s.max_depth := by
      simp only [astListHeight] at h
      omega
    simp only [eval_args]
    cases hv : eval_node s ctx env a depth with
    | error e =>
      rw [except_bind_error]
      intro heq
      injection heq with h1
      subst h1
      exact eval_node_ne_valErr s ctx env a depth ha' msg hv
    | ok v =>
      rw [except_bind_ok]
      cases hw : eval_args s ctx env rest depth with
      | error e =>
        rw [except_bind_error]
        intro heq
        injection heq with h1
        subst h1
        exact eval_args_ne_valErr s ctx env rest depth hr' msg hw
      | ok vs =>
        rw [except_bind_ok]
        simp
end

/-- Beyond the depth budget, a chain of nested `abs` calls fails with exactly
the "nesting too deep" ValueError. -/
theorem eval_node_absChain_nesting (s : EvalSettings) (ctx : Ctx)
    (env : List (String × Dec)) :
    ∀ (n depth : Nat), s.max_depth < depth + n →
    eval_node s ctx env (absChain n) depth =
      .error (.valErr "Expression too deeply nested.") := by
  intro n
  induction n with
  | zero =>
    intro depth h
    have hd : s.max_depth < depth := by omega
    simp only [absChain, eval_node, if_pos hd]
  | succ m ih =>
    intro depth h
    by_cases hd : s.max_depth < depth
    · simp only [absChain, eval_node, if_pos hd]
    · simp only [absChain, eval_node, if_neg hd]
      have habs : allowedNames.contains (callTargetName (Ast.name "abs")) = true := by decide
      rw [if_pos habs]
      simp only [eval_args]
      rw [ih (depth + 1) (by omega), except_bind_error, except_bind_error]

/-! Value and normalization lemmas for the formatter. -/

/-- A zero coefficient denotes the rational zero, whatever the sign. -/
theorem decVal_zero_c (sg : Bool) (e : Int) : decVal ⟨sg, 0, e⟩ = 0 := by
  simp [decVal]

/-- Trailing powers of ten move between coefficient and exponent. -/
theorem decVal_strip (sg : Bool) (c t : Nat) (e : Int) :
    decVal ⟨sg, c * 10 ^ t, e⟩ = decVal ⟨sg, c, e + (t : Int)⟩ := by
  simp only [decVal]
  rw [zpow_add₀ (by norm_num : (10:ℚ) ≠ 0), zpow_natCast]
  push_cast
  ring

/-- Normalizing a zero yields the signed zero with exponent 0. -/
theorem decNormalize_zero (g : Ctx) (x : Dec) (h : numDigits x.c ≤ g.prec)
    (h0 : x.c = 0) : decNormalize g x = ⟨x.sign, 0, 0⟩ := by
  unfold decNormalize
  rw [fix_eq_self g x h]
  simp only [if_pos h0]

/-- Normalizing a nonzero value (within precision) strips all trailing
zeros. -/
theorem decNormalize_nonzero (g : Ctx) (x : Dec) (h : numDigits x.c ≤ g.prec)
    (h0 : x.c ≠ 0) :
    decNormalize g x =
      ⟨x.sign, x.c / 10 ^ tzbGo x.c 10 x.c, x.e + (tzbGo x.c 10 x.c : Int)⟩ := by
  unfold decNormalize
  rw [fix_eq_self g x h]
  simp only [if_neg h0]

/-- Normalization preserves the denoted value (when no rounding occurs). -/
theorem decNormalize_val (g : Ctx) (x : Dec) (h : numDigits x.c ≤ g.prec) :
    decVal (decNormalize g x) = decVal x := by
  by_cases h0 : x.c = 0
  · rw [decNormalize_zero g x h h0, decVal_zero_c]
    simp [decVal, h0]
  · rw [decNormalize_nonzero g x h h0]
    obtain ⟨hdvd, -⟩ := tz10_spec x.c h0
    set t := tzbGo x.c 10 x.c with ht
    have hc : x.c / 10 ^ t * 10 ^ t = x.c := Nat.div_mul_cancel hdvd
    have hv := decVal_strip x.sign (x.c / 10 ^ t) t x.e
    rw [hc] at hv
    rw [← hv]

/-- The coefficient of a normalized nonzero value is nonzero and not a
multiple of ten. -/
theorem decNormalize_props (g : Ctx) (x : Dec) (h : numDigits x.c ≤ g.prec)
    (h0 : x.c ≠ 0) :
    (decNormalize g x).c ≠ 0 ∧ (decNormalize g x).c % 10 ≠ 0 := by
  rw [decNormalize_nonzero g x h h0]
  obtain ⟨hdvd, hnd⟩ := tz10_spec x.c h0
  set t := tzbGo x.c 10 x.c with ht
  have hc : x.c / 10 ^ t * 10 ^ t = x.c := Nat.div_mul_cancel hdvd
  constructor
  · intro hz
    dsimp only at hz
    rw [hz, zero_mul] at hc
    exact h0 hc.symm
  · intro hz
    dsimp only at hz
    obtain ⟨u, hu⟩ := Nat.dvd_of_mod_eq_zero hz
    apply hnd
    refine ⟨u, ?_⟩
    rw [← hc, hu, pow_succ]
    ring

/-! List scanning lemmas for the parse-back proof. -/

/-- A list of characters all satisfying `p` is taken whole. -/
theorem takeWhile_all_eq {p : Char → Bool} :
    ∀ l : List Char, (∀ c ∈ l, p c = true) →
    l.takeWhile p = l ∧ l.dropWhile p = [] := by
  intro l
  induction l with
  | nil => simp
  | cons a t ih =>
    intro h
    have ha : p a = true := h a (by simp)
    have ht := ih (fun c hc => h c (by simp [hc]))
    simp [List.takeWhile_cons, List.dropWhile_cons, ha, ht.1, ht.2]

/-- Scanning stops exactly at the first character violating `p`. -/
theorem takeWhile_append_stop {p : Char → Bool} :
    ∀ (A : List Char) (b : Char) (B : List Char), (∀ c ∈ A, p c = true) → p b = false →
    (A ++ b :: B).takeWhile p = A ∧ (A ++ b :: B).dropWhile p = b :: B := by
  intro A
  induction A with
  | nil =>
    intro b B _ hb
    simp [List.takeWhile_cons, List.dropWhile_cons, hb]
  | cons a t ih =>
    intro b B hA hb
    have ha : p a = true := hA a (by simp)
    have ht := ih b B (fun c hc => hA c (by simp [hc])) hb
    simp [List.takeWhile_cons, List.dropWhile_cons, ha, ht.1, ht.2]

/-- The last element of an appended list lies in its nonempty right part. -/
theorem getLast_append_right {α : Type} (l2 : List α) (hno : l2 ≠ []) :
    ∀ l1 : List α, (l1 ++ l2).getLast? = l2.getLast? := by
  intro l1
  induction l1 with
  | nil => simp
  | cons x t ih =>
    rw [List.cons_append]
    cases h2 : t ++ l2 with
    | nil => exact absurd (List.append_eq_nil.mp h2).2 hno
    | cons y r =>
      rw [List.getLast?_cons_cons]
      rw [h2] at ih
      exact ih

/-- `rstrip` is the identity when the last character is not the stripped
one. -/
theorem rstripChar_id (ch : Char) (l : List Char)
    (h : ∀ a, l.getLast? = some a → a ≠ ch) : rstripChar ch l = l := by
  unfold rstripChar
  cases hl : l.reverse with
  | nil => simp [List.reverse_eq_nil_iff.mp hl]
  | cons a t =>
    have hlast : l.getLast? = some a := by
      rw [← List.head?_reverse, hl]
      rfl
    have ha : (a == ch) = false := beq_eq_false_iff_ne.mpr (h a hlast)
    rw [List.dropWhile_cons, ha]
    simp only [Bool.false_eq_true, if_false]
    rw [← hl, List.reverse_reverse]
theorem decOfString_digits (sg : Bool) (A : List Char) (hA : ∀ c ∈ A, c.isDigit = true)
    (hne : A ≠ []) :
    decOfString (String.mk ((if sg then [ '-' ] else []) ++ A)) =
      some ⟨sg, digitCharsToNat A, 0⟩ := by
  obtain ⟨a, t, rfl⟩ : ∃ a t, A = a :: t := by
    cases A with
    | nil => exact absurd rfl hne
    | cons a t => exact ⟨a, t, rfl⟩
  have ha : a.isDigit = true := hA a (by simp)
  obtain ⟨htake, hdrop⟩ := takeWhile_all_eq (a :: t) hA
  have hnd : ¬ ((a :: t).head? = some '-') := by
    simp only [List.head?]
    intro hcon
    injection hcon with h1
    exact isDigit_ne_dash ha h1
  cases sg with
  | false =>
    simp only [Bool.false_eq_true, if_false, List.nil_append]
    unfold decOfString
    dsimp only
    rw [if_neg hnd]
    dsimp only
    rw [htake, hdrop]
    dsimp only
    rw [if_neg (by simp : ¬ ((a :: t).isEmpty = true))]
  | true =>
    simp only [if_true]
    unfold decOfString
    dsimp only
    rw [if_pos (by rfl)]
    simp only [List.singleton_append, List.tail_cons]
    rw [htake, hdrop]
    dsimp only
    rw [if_neg (by simp : ¬ ((a :: t).isEmpty = true))]

/-- Parsing a sign, an integer part, a point and a fractional part. -/
theorem decOfString_point (sg : Bool) (A B : List Char) (hA : ∀ c ∈ A, c.isDigit = true)
    (hB : ∀ c ∈ B, c.isDigit = true) (hne : A ≠ []) :
    decOfString (String.mk ((if sg then [ '-' ] else []) ++ (A ++ '.' :: B))) =
      some ⟨sg, digitCharsToNat (A ++ B), -(B.length : Int)⟩ := by
  obtain ⟨a, t, rfl⟩ : ∃ a t, A = a :: t := by
    cases A with
    | nil => exact absurd rfl hne
    | cons a t => exact ⟨a, t, rfl⟩
  have ha : a.isDigit = true := hA a (by simp)
  obtain ⟨htake, hdrop⟩ := takeWhile_append_stop (a :: t) '.' B hA (by decide)
  have hnd : ¬ (((a :: t) ++ '.' :: B).head? = some '-') := by
    simp only [List.cons_append, List.head?]
    intro hcon
    injection hcon with h1
    exact isDigit_ne_dash ha h1
  have hcond : '.' = '.' ∧ B.all Char.isDigit = true ∧
      ¬((a :: t).isEmpty = true ∧ B.isEmpty = true) := by
    refine ⟨rfl, List.all_eq_true.mpr hB, ?_⟩
    simp
  cases sg with
  | false =>
    simp only [Bool.false_eq_true, if_false, List.nil_append]
    unfold decOfString
    dsimp only
    rw [if_neg hnd]
    dsimp only
    rw [htake, hdrop]
    dsimp only
    rw [if_pos hcond]
  | true =>
    simp only [if_true]
    unfold decOfString
    dsimp only
    rw [if_pos (by rfl)]
    simp only [List.singleton_append, List.tail_cons]
    rw [htake, hdrop]
    dsimp only
    rw [if_pos hcond]

/-- A nonzero digit renders to a character other than the zero digit. -/
theorem digit_char_ne_zero (d : Nat) (hd : d < 10) (h0 : d ≠ 0) :
    Char.ofNat (48 + d) ≠ '0' := by
  interval_cases d
  · exact absurd rfl h0
  all_goals decide

/-- Membership characterization of `List.contains` on characters. -/
theorem contains_eq_true_iff (l : List Char) (a : Char) :
    l.contains a = true ↔ a ∈ l := by
  induction l with
  | nil => simp
  | cons x t ih =>
    simp only [List.contains_cons, Bool.or_eq_true, beq_iff_eq, List.mem_cons, ih]

/-- The trailing-zero/trailing-point strip is the identity when the string
ends in a nonzero digit. -/
theorem strip_id_of_last_digit (s : List Char) (lc : Char)
    (hl : s.getLast? = some lc) (hd : lc.isDigit = true) (h0 : lc ≠ '0') :
    rstripChar '.' (rstripChar '0' s) = s := by
  have h1 : rstripChar '0' s = s := by
    apply rstripChar_id
    intro a ha
    rw [hl] at ha
    injection ha with h2
    subst h2
    exact h0
  rw [h1]
  apply rstripChar_id
  intro a ha
  rw [hl] at ha
  injection ha with h2
  subst h2
  exact isDigit_ne_dot hd

/-- Core formatter contract after normalization: for a normalized nonzero
value the emitted string consists of sign/digits/point only, parses back to
the same rational value, and never ends in a redundant zero or point. -/
theorem format_after_normalize (g : Ctx) (x : Dec)
    (h0 : (decNormalize g x).c ≠ 0) (ht : (decNormalize g x).c % 10 ≠ 0) :
    (∀ ch ∈ (format_decimal g x).data, ch.isDigit = true ∨ ch = '-' ∨ ch = '.') ∧
    (∃ y, decOfString (format_decimal g x) = some y ∧
      decVal y = decVal (decNormalize g x)) ∧
    ((format_decimal g x).data.contains '.' = true →
      (format_decimal g x).data.getLast? ≠ some '0' ∧
      (format_decimal g x).data.getLast? ≠ some '.') := by
  set d := decNormalize g x with hd
  have hDdig := natToDigitChars_all_digit d.c
  have hDne := natToDigitChars_ne_nil d.c
  have hDlast := natToDigitChars_getLast d.c h0
  have hmod10 : d.c % 10 < 10 := Nat.mod_lt _ (by norm_num)
  have hlc_digit : (Char.ofNat (48 + d.c % 10)).isDigit = true :=
    digit_char_isDigit _ hmod10
  have hlc_ne0 : Char.ofNat (48 + d.c % 10) ≠ '0' := digit_char_ne_zero _ hmod10 ht
  have hform : format_decimal g x =
      (let s := formatFChars d
       let s2 := if s.contains '.' then rstripChar '.' (rstripChar '0' s) else s
       String.mk (if s2.isEmpty then [ '0' ] else s2)) := by
    rw [hd]
    rfl
  set D := natToDigitChars d.c with hDdef
  set L : Int := (D.length : Int) with hL
  have hLpos : 1 ≤ L := by
    rw [hL]
    cases hcase : D with
    | nil => exact absurd hcase hDne
    | cons a t => simp
  by_cases hdp0 : d.e + L ≤ 0
  · -- leading-zero form  0.00...0D
    set Z := List.replicate (-(d.e + L)).toNat '0' with hZ
    have hs : formatFChars d = (if d.sign then [ '-' ] else []) ++
        ('0' :: '.' :: (Z ++ D)) := by
      have hdp0r := hdp0
      rw [hL, hDdef] at hdp0r
      rw [hZ, hL, hDdef]
      unfold formatFChars
      dsimp only
      rw [if_pos hdp0r]
    have hZdig : ∀ ch ∈ Z, ch = '0' := by
      intro ch hch
      rw [hZ] at hch
      exact (List.mem_replicate.mp hch).2
    have hreassoc : (if d.sign then [ '-' ] else []) ++ ('0' :: '.' :: (Z ++ D)) =
        ((if d.sign then [ '-' ] else []) ++ ('0' :: '.' :: Z)) ++ D := by
      simp
    have hslast : (formatFChars d).getLast? = some (Char.ofNat (48 + d.c % 10)) := by
      rw [hs, hreassoc, getLast_append_right D hDne]
      exact hDlast
    have hcont : (formatFChars d).contains '.' = true := by
      rw [contains_eq_true_iff, hs]
      simp
    have hsne : (formatFChars d).isEmpty = false := by
      rw [hs]
      cases d.sign <;> simp
    have hstrip := strip_id_of_last_digit (formatFChars d) _ hslast hlc_digit hlc_ne0
    have hfinal : format_decimal g x = String.mk (formatFChars d) := by
      rw [hform]
      dsimp only
      rw [if_pos hcont, hstrip, hsne]
      simp
    have hdata : (format_decimal g x).data = formatFChars d := by
      rw [hfinal]
    refine ⟨?_, ?_, ?_⟩
    · intro ch hch
      rw [hdata, hs] at hch
      rcases List.mem_append.mp hch with h | h
      · cases hsign : d.sign
        · rw [hsign] at h
          simp at h
        · rw [hsign] at h
          simp at h
          subst h
          right
          left
          rfl
      · rcases List.mem_cons.mp h with h | h
        · subst h
          left
          decide
        · rcases List.mem_cons.mp h with h | h
          · subst h
            right
            right
            rfl
          · rcases List.mem_append.mp h with h | h
            · left
              rw [hZdig ch h]
              decide
            · exact Or.inl (hDdig ch h)
    · have hA0 : ∀ c ∈ ([ '0' ] : List Char), c.isDigit = true := by
        intro c hc
        simp at hc
        subst hc
        decide
      have hB0 : ∀ c ∈ Z ++ D, c.isDigit = true := by
        intro c hc
        rcases List.mem_append.mp hc with h | h
        · rw [hZdig c h]
          decide
        · exact hDdig c h
      have hparse := decOfString_point d.sign [ '0' ] (Z ++ D) hA0 hB0 (by simp)
      refine ⟨⟨d.sign, digitCharsToNat ([ '0' ] ++ (Z ++ D)), -(((Z ++ D).length : Nat) : Int)⟩,
        ?_, ?_⟩
      · rw [hfinal, hs]
        exact hparse
      · have hdig : digitCharsToNat ([ '0' ] ++ (Z ++ D)) = d.c := by
          rw [digitCharsToNat_append, digitCharsToNat_append]
          rw [hZ, digitCharsToNat_replicate_zero, digitCharsToNat_natToDigitChars]
          simp [digitCharsToNat]
          decide
        have hexp : -(((Z ++ D).length : Nat) : Int) = d.e := by
          rw [List.length_append, hZ, List.length_replicate]
          have htn : (((-(d.e + L)).toNat : Nat) : Int) = -(d.e + L) :=
            Int.toNat_of_nonneg (by omega)
          push_cast
          push_cast at htn
          rw [← hL] at *
          omega
        rw [hdig, hexp]
    · intro _
      rw [hdata, hslast]
      constructor
      · intro hcon
        injection hcon with h2
        exact hlc_ne0 h2
      · intro hcon
        injection hcon with h2
        exact isDigit_ne_dot hlc_digit h2
  · by_cases hdpL : L ≤ d.e + L
    · -- integral form  D00...0
      set Z := List.replicate (d.e + L - L).toNat '0' with hZ
      have hs : formatFChars d = (if d.sign then [ '-' ] else []) ++ (D ++ Z) := by
        have hdp0r := hdp0
        rw [hL, hDdef] at hdp0r
        have hdpLr := hdpL
        rw [hL, hDdef] at hdpLr
        rw [hZ, hL, hDdef]
        unfold formatFChars
        dsimp only
        rw [if_neg hdp0r, if_pos hdpLr]
      have hZdig : ∀ ch ∈ Z, ch = '0' := by
        intro ch hch
        rw [hZ] at hch
        exact (List.mem_replicate.mp hch).2
      have hnodots : ¬ (('.' : Char) ∈ formatFChars d) := by
        rw [hs]
        intro hch
        rcases List.mem_append.mp hch with h | h
        · cases hsign : d.sign
          · rw [hsign] at h
            simp at h
          · rw [hsign] at h
            simp at h
        · rcases List.mem_append.mp h with h | h
          · exact isDigit_ne_dot (hDdig _ h) rfl
          · have := hZdig _ h
            simp at this
      have hcont : (formatFChars d).contains '.' = false := by
        rw [← Bool.not_eq_true, contains_eq_true_iff]
        exact hnodots
      have hsne : (formatFChars d).isEmpty = false := by
        rw [hs]
        cases d.sign <;> simp [hDne]
      have hfinal : format_decimal g x = String.mk (formatFChars d) := by
        rw [hform]
        dsimp only
        rw [hcont]
        simp only [Bool.false_eq_true, if_false]
        rw [hsne]
        simp
      have hdata : (format_decimal g x).data = formatFChars d := by
        rw [hfinal]
      refine ⟨?_, ?_, ?_⟩
      · intro ch hch
        rw [hdata, hs] at hch
        rcases List.mem_append.mp hch with h | h
        · cases hsign : d.sign
          · rw [hsign] at h
            simp at h
          · rw [hsign] at h
            simp at h
            subst h
            right
            left
            rfl
        · rcases List.mem_append.mp h with h | h
          · exact Or.inl (hDdig ch h)
          · left
            rw [hZdig ch h]
            decide
      · have hAB : ∀ c ∈ D ++ Z, c.isDigit = true := by
          intro c hc
          rcases List.mem_append.mp hc with h | h
          · exact hDdig c h
          · rw [hZdig c h]
            decide
        have hABne : D ++ Z ≠ [] := by
          intro hcon
          exact hDne (List.append_eq_nil.mp hcon).1
        have hparse := decOfString_digits d.sign (D ++ Z) hAB hABne
        refine ⟨⟨d.sign, digitCharsToNat (D ++ Z), 0⟩, ?_, ?_⟩
        · rw [hfinal, hs]
          exact hparse
        · have hdig : digitCharsToNat (D ++ Z) =
              d.c * 10 ^ (d.e + L - L).toNat := by
            rw [digitCharsToNat_append, hZ, digitCharsToNat_replicate_zero,
              digitCharsToNat_natToDigitChars, List.length_replicate]
            omega
          rw [hdig, decVal_strip]
          have hexp : (0 : Int) + ((d.e + L - L).toNat : Int) = d.e := by
            have htn : (((d.e + L - L).toNat : Nat) : Int) = d.e + L - L :=
              Int.toNat_of_nonneg (by omega)
            omega
          rw [hexp]
      · intro hcon
        rw [hdata, hcont] at hcon
        exact absurd hcon (by simp)
    · -- split form  D1.D2
      set m := (d.e + L).toNat with hm
      set tk := D.take m with htk
      set dr := D.drop m with hdr
      have hmL : 1 ≤ m ∧ (m : Int) = d.e + L ∧ m < D.length := by
        refine ⟨?_, ?_, ?_⟩
        · rw [hm]
          omega
        · rw [hm]
          exact Int.toNat_of_nonneg (by omega)
        · have := Int.toNat_of_nonneg (show (0:Int) ≤ d.e + L by omega)
          rw [hL] at *
          omega
      have hs : formatFChars d = (if d.sign then [ '-' ] else []) ++
          (tk ++ '.' :: dr) := by
        have hdp0r := hdp0
        rw [hL, hDdef] at hdp0r
        have hdpLr := hdpL
        rw [hL, hDdef] at hdpLr
        rw [htk, hdr, hm, hL, hDdef]
        unfold formatFChars
        dsimp only
        rw [if_neg hdp0r, if_neg hdpLr]
      have htkdig : ∀ c ∈ tk, c.isDigit = true := by
        intro c hc
        exact hDdig c (List.take_subset m D (htk ▸ hc))
      have hdrdig : ∀ c ∈ dr, c.isDigit = true := by
        intro c hc
        exact hDdig c (List.drop_subset m D (hdr ▸ hc))
      have htkne : tk ≠ [] := by
        rw [htk]
        intro hcon
        have := congrArg List.length hcon
        simp [List.length_take] at this
        rcases this with h | h
        · omega
        · exact hDne h
      have hdrne : dr ≠ [] := by
        rw [hdr]
        intro hcon
        have := congrArg List.length hcon
        simp [List.length_drop] at this
        omega
      have htkdr : tk ++ dr = D := by
        rw [htk, hdr]
        exact List.take_append_drop m D
      have hreassoc : (if d.sign then [ '-' ] else []) ++ (tk ++ '.' :: dr) =
          ((if d.sign then [ '-' ] else []) ++ tk ++ [ '.' ]) ++ dr := by
        simp
      have hdrlast : dr.getLast? = some (Char.ofNat (48 + d.c % 10)) := by
        have h1 : D.getLast? = dr.getLast? := by
          rw [← htkdr]
          exact getLast_append_right dr hdrne tk
        rw [← h1]
        exact hDlast
      have hslast : (formatFChars d).getLast? = some (Char.ofNat (48 + d.c % 10)) := by
        rw [hs, hreassoc, getLast_append_right dr hdrne]
        exact hdrlast
      have hcont : (formatFChars d).contains '.' = true := by
        rw [contains_eq_true_iff, hs]
        simp
      have hsne : (formatFChars d).isEmpty = false := by
        rw [hs]
        cases d.sign <;> simp
      have hstrip := strip_id_of_last_digit (formatFChars d) _ hslast hlc_digit hlc_ne0
      have hfinal : format_decimal g x = String.mk (formatFChars d) := by
        rw [hform]
        dsimp only
        rw [if_pos hcont, hstrip, hsne]
        simp
      have hdata : (format_decimal g x).data = formatFChars d := by
        rw [hfinal]
      refine ⟨?_, ?_, ?_⟩
      · intro ch hch
        rw [hdata, hs] at hch
        rcases List.mem_append.mp hch with h | h
        · cases hsign : d.sign
          · rw [hsign] at h
            simp at h
          · rw [hsign] at h
            simp at h
            subst h
            right
            left
            rfl
        · rcases List.mem_append.mp h with h | h
          · exact Or.inl (htkdig ch h)
          · rcases List.mem_cons.mp h with h | h
            · subst h
              right
              right
              rfl
            · exact Or.inl (hdrdig ch h)
      · have hparse := decOfString_point d.sign tk dr htkdig hdrdig htkne
        refine ⟨⟨d.sign, digitCharsToNat (tk ++ dr), -((dr.length : Nat) : Int)⟩, ?_, ?_⟩
        · rw [hfinal, hs]
          exact hparse
        · have hdig : digitCharsToNat (tk ++ dr) = d.c := by
            rw [htkdr, hDdef]
            exact digitCharsToNat_natToDigitChars d.c
          have hexp : -((dr.length : Nat) : Int) = d.e := by
            rw [hdr, List.length_drop]
            have h1 : m ≤ D.length := le_of_lt hmL.2.2
            have h2 : ((D.length - m : Nat) : Int) = L - m := by
              rw [hL]
              omega
            rw [h2]
            have := hmL.2.1
            omega
          rw [hdig, hexp]
      · intro _
        rw [hdata, hslast]
        constructor
        · intro hcon
          injection hcon with h2
          exact hlc_ne0 h2
        · intro hcon
          injection hcon with h2
          exact isDigit_ne_dot hlc_digit h2

/-- Formatting a zero (within precision): the sign survives, as Python's
`format(Decimal('-0'), 'f')` keeps the minus. -/
theorem format_decimal_zero (g : Ctx) (x : Dec) (h : numDigits x.c ≤ g.prec)
    (h0 : x.c = 0) : format_decimal g x = if x.sign then "-0" else "0" := by
  have hn := decNormalize_zero g x h h0
  unfold format_decimal
  rw [hn]
  cases hsign : x.sign <;> rfl

/-! Claim theorems. -/

/-- C1: the spec says fractional literals keep their decimal string form and
convert exactly to Decimal.  In the code, CPython's `ast` turns a fractional
literal into a binary float constant and `_to_decimal` rejects floats with a
TypeError, so every expression containing a fractional literal fails — the
repository's own tests (`round(1.2345, 2)`, `abs(-12.5)`) expect these to
work, so this is a code bug.  The error-condition half of the claim does
hold: float construction is an error, never a silent approximation. -/
theorem spec_c1_float_literal :
    engine_evaluate gDefault Sdefault mem0 "1.5" =
      .error (.typeErr "Unsupported literal type: <class 'float'>") ∧
    parse_expression "1.5" = .ok (.lit (.floatL "1.5")) ∧
    engine_evaluate gDefault Sdefault mem0 "round(1.2345, 2)" =
      .error (.typeErr "Unsupported literal type: <class 'float'>") ∧
    (∀ srcTxt : String, to_decimal (.floatL srcTxt) =
      .error (.typeErr "Unsupported literal type: <class 'float'>")) :=
  ⟨rfl, rfl, rfl, fun _ => rfl⟩

/-- C2: the five worked arithmetic examples of the spec evaluate exactly as
stated, with standard precedence and minimal formatting. -/
theorem spec_c2_examples :
    engine_evaluate gDefault Sdefault mem0 "1+2*3" = .ok "7" ∧
    engine_evaluate gDefault Sdefault mem0 "(1+2)*3" = .ok "9" ∧
    engine_evaluate gDefault Sdefault mem0 "10/4" = .ok "2.5" ∧
    engine_evaluate gDefault Sdefault mem0 "5%2" = .ok "1" ∧
    engine_evaluate gDefault Sdefault mem0 "2**10" = .ok "1024" :=
  ⟨rfl, rfl, rfl, rfl, rfl⟩

/-- C3: the quantization logic of `_round_decimal` is indeed round-half-to-even
with a defaulted 0-digit second argument (shown both at the Decimal level and
on expressions whose fractional values come from division), but the spec's
worked examples `round(1.2345, 2)`, `round(0.5,0)`, `round(1.5,0)` all fail in
the code with a TypeError because their fractional literals arrive as binary
floats — contradicting the repository's own test suite, hence a code bug. -/
theorem spec_c3_round :
    engine_evaluate gDefault Sdefault mem0 "round(1.2345, 2)" =
      .error (.typeErr "Unsupported literal type: <class 'float'>") ∧
    engine_evaluate gDefault Sdefault mem0 "round(0.5,0)" =
      .error (.typeErr "Unsupported literal type: <class 'float'>") ∧
    engine_evaluate gDefault Sdefault mem0 "round(1.5,0)" =
      .error (.typeErr "Unsupported literal type: <class 'float'>") ∧
    round_decimal ⟨1000⟩ ⟨false, 12345, -4⟩ 2 = .ok ⟨false, 123, -2⟩ ∧
    round_decimal ⟨1000⟩ ⟨false, 5, -1⟩ 0 = .ok ⟨false, 0, 0⟩ ∧
    round_decimal ⟨1000⟩ ⟨false, 15, -1⟩ 0 = .ok ⟨false, 2, 0⟩ ∧
    apply_allowed_func ⟨1000⟩ "round" [⟨false, 5, -1⟩] = .ok ⟨false, 0, 0⟩ ∧
    engine_evaluate gDefault Sdefault mem0 "round(5/4, 1)" = .ok "1.2" ∧
    engine_evaluate gDefault Sdefault mem0 "round(7/4, 1)" = .ok "1.8" :=
  ⟨rfl, rfl, rfl, rfl, rfl, rfl, rfl, rfl, rfl⟩

/-- C4 counterexample: `set_precision(10)` does not install a 10-digit
precision — it raises the InvalidPrecision ValueError, because 10 < 16. -/
theorem spec_c4_counterexample :
    set_precision 10 gDefault = .error (.valErr "Precision must be at least 16.") := rfl

/-- C4 amended: `set_precision(10)` and `set_precision(5)` both fail with
InvalidPrecision (anything below 16 does); for `n ≥ 16` the global context's
digit count becomes `n`, and a subsequent `evaluate("1/7")` carries exactly
`n` significant digits — because `format_decimal` normalizes under the global
context — while the arithmetic itself runs at the engine's own
`EvalSettings.precision` (default 1000), which `evaluate` uses instead of the
global context. -/
theorem spec_c4_amended :
    (set_precision 10 gDefault = .error (.valErr "Precision must be at least 16.")) ∧
    (set_precision 5 gDefault = .error (.valErr "Precision must be at least 16.")) ∧
    (∀ (g : Ctx) (n : Nat), 16 ≤ n → set_precision n g = .ok ⟨n⟩) ∧
    (∀ m : Memory, engine_evaluate ⟨16⟩ Sdefault m "1/7" =
      .ok "0.1428571428571429") ∧
    (∀ m : Memory, engine_evaluate ⟨20⟩ Sdefault m "1/7" =
      .ok "0.14285714285714285714") := by
  refine ⟨rfl, rfl, ?_, fun m => rfl, fun m => rfl⟩
  intro g n h
  unfold set_precision
  rw [if_neg (by omega)]

/-- C4 witness: instantiation at a valid precision. -/
theorem spec_c4_witness :
    set_precision 16 gDefault = .ok ⟨16⟩ ∧
    engine_evaluate ⟨16⟩ Sdefault mem0 "1/7" = .ok "0.1428571428571429" :=
  ⟨spec_c4_amended.2.2.1 gDefault 16 (by norm_num), spec_c4_amended.2.2.2.1 mem0⟩

/-- C5 counterexample: 66 nested parentheses exceed the default
`max_depth = 64`, yet evaluation succeeds — parentheses are grouping only and
produce no AST node, so they never advance the depth counter. -/
theorem spec_c5_counterexample :
    Sdefault.max_depth < 66 ∧
    engine_evaluate gDefault Sdefault mem0 (nestedParens 66) = .ok "1" :=
  ⟨by decide, rfl⟩

/-- C5 amended: the depth counter counts descents into AST child nodes, not
parentheses.  Within the budget (`depth + astHeight ≤ max_depth`) the
evaluator never raises the nesting ValueError; a chain of more than
`max_depth` nested calls fails with exactly "Expression too deeply nested.";
and an engine evaluation whose parsed AST fits the budget never reports that
error. -/
theorem spec_c5_amended :
    (∀ (s : EvalSettings) (ctx : Ctx) (env : List (String × Dec)) (node : Ast)
       (depth : Nat) (msg : String), depth + astHeight node ≤ s.max_depth →
       eval_node s ctx env node depth ≠ .error (.valErr msg)) ∧
    (∀ (s : EvalSettings) (ctx : Ctx) (env : List (String × Dec)) (n depth : Nat),
       s.max_depth < depth + n →
       eval_node s ctx env (absChain n) depth =
         .error (.valErr "Expression too deeply nested.")) ∧
    (∀ (g : Ctx) (s : EvalSettings) (m : Memory) (input : String) (node : Ast),
       parse_expression (pyStrip input) = .ok node → astHeight node ≤ s.max_depth →
       engine_evaluate g s m input ≠
         .error (.valErr "Expression too deeply nested.")) := by
  refine ⟨fun s ctx env node depth msg h =>
      eval_node_ne_valErr s ctx env node depth h msg,
    fun s ctx env n depth h => eval_node_absChain_nesting s ctx env n depth h, ?_⟩
  intro g s m input node hp hh hcon
  unfold engine_evaluate engine_evaluate_st at hcon
  dsimp only at hcon
  by_cases hempty : (pyStrip input).data.isEmpty
  · rw [if_pos hempty] at hcon
    simp at hcon
  · rw [if_neg hempty] at hcon
    have hev : evaluator_eval s m.recall (pyStrip input) =
        eval_node s ⟨s.precision⟩ (SAFE_CONSTS ++ [("M", m.recall)]) node 0 := by
      unfold evaluator_eval
      dsimp only
      rw [hp, except_bind_ok]
    rw [hev] at hcon
    cases he : eval_node s ⟨s.precision⟩ (SAFE_CONSTS ++ [("M", m.recall)]) node 0 with
    | error e =>
      rw [he] at hcon
      dsimp only at hcon
      injection hcon with h1
      subst h1
      exact eval_node_ne_valErr s ⟨s.precision⟩ (SAFE_CONSTS ++ [("M", m.recall)])
        node 0 (by omega) "Expression too deeply nested." he
    | ok r =>
      rw [he] at hcon
      dsimp only at hcon
      simp at hcon

/-- C5 witness: a shallow node is safe, a 65-deep call chain fails with the
nesting error, and a triple-parenthesized literal evaluates cleanly. -/
theorem spec_c5_witness :
    eval_node Sdefault ⟨1000⟩ [] (Ast.lit (.intL 1)) 0 ≠
      .error (.valErr "Expression too deeply nested.") ∧
    eval_node Sdefault ⟨1000⟩ [] (absChain 65) 0 =
      .error (.valErr "Expression too deeply nested.") ∧
    engine_evaluate gDefault Sdefault mem0 (nestedParens 3) ≠
      .error (.valErr "Expression too deeply nested.") :=
  ⟨spec_c5_amended.1 Sdefault ⟨1000⟩ [] (Ast.lit (.intL 1)) 0
      "Expression too deeply nested." (by decide),
   spec_c5_amended.2.1 Sdefault ⟨1000⟩ [] 65 0 (by decide),
   spec_c5_amended.2.2 gDefault Sdefault mem0 (nestedParens 3) (.lit (.intL 1))
      (by rfl) (by decide)⟩

/-- C6: `1/0` fails with the DivisionByZero message and `1%0` with the
distinct ModuloByZero message (same Python exception class, distinguishable
messages), and for every nonzero divisor neither zero-divide branch is
taken. -/
theorem spec_c6_div_mod_zero :
    engine_evaluate gDefault Sdefault mem0 "1/0" =
      .error (.zeroDivErr "Division by zero.") ∧
    engine_evaluate gDefault Sdefault mem0 "1%0" =
      .error (.zeroDivErr "Modulo by zero.") ∧
    (Err.zeroDivErr "Division by zero." ≠ Err.zeroDivErr "Modulo by zero.") ∧
    (∀ (ctx : Ctx) (a b : Dec) (msg : String), b.c ≠ 0 →
      apply_binop ctx a .div b ≠ .error (.zeroDivErr msg) ∧
      apply_binop ctx a .mod b ≠ .error (.zeroDivErr msg)) := by
  refine ⟨rfl, rfl, by decide, ?_⟩
  intro ctx a b msg hb
  constructor
  · simp only [apply_binop]
    rw [if_neg hb]
    unfold decDiv
    dsimp only
    rw [if_neg hb]
    split <;> split <;> simp
  · simp only [apply_binop]
    rw [if_neg hb]
    unfold decMod
    dsimp only
    rw [if_neg hb]
    split <;> simp

/-- C6 witness: the error branch is not taken for the divisor 7. -/
theorem spec_c6_witness :
    apply_binop ⟨1000⟩ ⟨false, 1, 0⟩ .div ⟨false, 7, 0⟩ ≠
      .error (.zeroDivErr "Division by zero.") :=
  (spec_c6_div_mod_zero.2.2.2 ⟨1000⟩ ⟨false, 1, 0⟩ ⟨false, 7, 0⟩
    "Division by zero." (by decide)).1

/-- C7: after `clear()` then `add(3)`, `evaluate("M*2")` returns "6" from any
prior register state; and in general every `evaluate` call binds `M` to the
register's current value, so the result of "M*2" is determined by the value
the register holds at call time (never a cached one). -/
theorem spec_c7_memory :
    (∀ m : Memory, engine_evaluate gDefault Sdefault
       (Memory.add gDefault (Memory.clear m) ⟨false, 3, 0⟩) "M*2" = .ok "6") ∧
    (∀ m : Memory, engine_evaluate gDefault Sdefault m "M*2" =
       .ok (format_decimal gDefault
         (decMul ⟨Sdefault.precision⟩ m.value ⟨false, 2, 0⟩))) := by
  constructor
  · intro m
    have hm : Memory.add gDefault (Memory.clear m) ⟨false, 3, 0⟩ = ⟨⟨false, 3, 0⟩⟩ := rfl
    rw [hm]
    rfl
  · intro m
    have he : evaluator_eval Sdefault (Memory.recall m) "M*2" =
        .ok (decMul ⟨Sdefault.precision⟩ m.value ⟨false, 2, 0⟩) := rfl
    unfold engine_evaluate engine_evaluate_st
    dsimp only
    rw [show (pyStrip "M*2").data.isEmpty = false from rfl]
    simp only [Bool.false_eq_true, if_false]
    rw [show pyStrip "M*2" = "M*2" from rfl, he]

/-- C8: evaluation is state-frame-preserving — for every input and every
starting state, `evaluate` (succeeding or failing) returns the global context
and the memory register unchanged; only the explicit memory operations and
`set_precision` produce new state values. -/
theorem spec_c8_frame :
    ∀ (g : Ctx) (s : EvalSettings) (m : Memory) (input : String),
      (engine_evaluate_st g s m input).2 = (g, m) := by
  intro g s m input
  unfold engine_evaluate_st
  dsimp only
  split
  · rfl
  · split <;> rfl

/-- C10: an input consisting only of whitespace (including the empty string)
makes `evaluate` return the empty string with no error and no state change. -/
theorem spec_c10_blank :
    ∀ (g : Ctx) (s : EvalSettings) (m : Memory) (input : String),
      (∀ ch ∈ input.data, isPySpace ch = true) →
      engine_evaluate_st g s m input = (.ok "", g, m) := by
  intro g s m input h
  have hstrip : (pyStrip input).data = [] := by
    unfold pyStrip
    rw [List.dropWhile_eq_nil_iff.mpr h]
    rfl
  unfold engine_evaluate_st
  dsimp only
  rw [hstrip]
  rfl

/-- C10 witness: two spaces (and nothing else) yield the empty result. -/
theorem spec_c10_witness :
    engine_evaluate_st gDefault Sdefault mem0 "  " = (.ok "", gDefault, mem0) :=
  spec_c10_blank gDefault Sdefault mem0 "  " (by decide)

/-- C9 counterexample: the claim fails in two ways.  A negative zero is an
exact-zero Decimal (its value equals 0) yet formats as "-0", not "0" — and it
is reachable, since `evaluate("0*-1")` returns "-0".  And a value carrying
more significant digits than the global context precision is re-rounded by
`normalize()` at format time: under precision 16 the 17-digit value
12345678901234567 formats as "12345678901234570", which parses back to a
different value. -/
theorem spec_c9_counterexample :
    decVal ⟨true, 0, 0⟩ = 0 ∧
    format_decimal gDefault ⟨true, 0, 0⟩ = "-0" ∧
    engine_evaluate gDefault Sdefault mem0 "0*-1" = .ok "-0" ∧
    format_decimal ⟨16⟩ ⟨false, 12345678901234567, 0⟩ = "12345678901234570" ∧
    decOfString "12345678901234570" = some ⟨false, 12345678901234570, 0⟩ ∧
    decVal ⟨false, 12345678901234570, 0⟩ ≠ decVal ⟨false, 12345678901234567, 0⟩ := by
  refine ⟨by norm_num [decVal], rfl, rfl, rfl, rfl, ?_⟩
  norm_num [decVal]

/-- C9 amended: for every Decimal whose coefficient fits the active global
precision (so `normalize()` does not re-round), the formatter emits no
exponent marker, never ends in a redundant fractional zero or a trailing
point, and is lossless — the emitted string parses back to a Decimal with the
same exact value; an exact zero formats as "0" when its sign is positive and
as "-0" when negative. -/
theorem spec_c9_amended :
    ∀ (g : Ctx) (x : Dec), numDigits x.c ≤ g.prec →
      (∀ ch ∈ (format_decimal g x).data, ch ≠ 'E' ∧ ch ≠ 'e') ∧
      (∃ y, decOfString (format_decimal g x) = some y ∧ decVal y = decVal x) ∧
      ((format_decimal g x).data.contains '.' = true →
        (format_decimal g x).data.getLast? ≠ some '0' ∧
        (format_decimal g x).data.getLast? ≠ some '.') ∧
      (x.c = 0 → format_decimal g x = if x.sign then "-0" else "0") := by
  intro g x h
  by_cases h0 : x.c = 0
  · have hfz := format_decimal_zero g x h h0
    refine ⟨?_, ?_, ?_, fun _ => hfz⟩
    · rw [hfz]
      cases hsign : x.sign
      · intro ch hch
        rw [if_neg (by decide : ¬ (false = true))] at hch
        have hdl : ("0" : String).data = [ '0' ] := rfl
        rw [hdl] at hch
        simp at hch
        subst hch
        exact ⟨by decide, by decide⟩
      · intro ch hch
        rw [if_pos (by decide : (true = true))] at hch
        have hdl : ("-0" : String).data = [ '-' , '0' ] := rfl
        rw [hdl] at hch
        simp at hch
        rcases hch with hch | hch <;> subst hch
        · exact ⟨by decide, by decide⟩
        · exact ⟨by decide, by decide⟩
    · rw [hfz]
      cases hsign : x.sign
      · exact ⟨⟨false, 0, 0⟩, rfl, by simp [decVal, h0]⟩
      · exact ⟨⟨true, 0, 0⟩, rfl, by simp [decVal, h0]⟩
    · rw [hfz]
      cases hsign : x.sign
      · intro hcon
        exact absurd hcon (by decide)
      · intro hcon
        exact absurd hcon (by decide)
  · obtain ⟨hn0, hnm⟩ := decNormalize_props g x h h0
    obtain ⟨hmem, ⟨y, hy, hyval⟩, htrail⟩ := format_after_normalize g x hn0 hnm
    refine ⟨?_, ⟨y, hy, ?_⟩, htrail, fun hcon => absurd hcon h0⟩
    · intro ch hch
      rcases hmem ch hch with hd | hd | hd
      · exact isDigit_ne_expmark hd
      · subst hd
        exact ⟨by decide, by decide⟩
      · subst hd
        exact ⟨by decide, by decide⟩
    · rw [hyval]
      exact decNormalize_val g x h

/-- C9 witness: instantiation at 3.14 under the default precision. -/
theorem spec_c9_witness :
    (∀ ch ∈ (format_decimal gDefault ⟨false, 314, -2⟩).data, ch ≠ 'E' ∧ ch ≠ 'e') ∧
    (∃ y, decOfString (format_decimal gDefault ⟨false, 314, -2⟩) = some y ∧
      decVal y = decVal ⟨false, 314, -2⟩) ∧
    ((format_decimal gDefault ⟨false, 314, -2⟩).data.contains '.' = true →
      (format_decimal gDefault ⟨false, 314, -2⟩).data.getLast? ≠ some '0' ∧
      (format_decimal gDefault ⟨false, 314, -2⟩).data.getLast? ≠ some '.') ∧
    ((⟨false, 314, -2⟩ : Dec).c = 0 →
      format_decimal gDefault ⟨false, 314, -2⟩ =
        if (⟨false, 314, -2⟩ : Dec).sign then "-0" else "0") :=
  spec_c9_amended gDefault ⟨false, 314, -2⟩ (by decide)
